import Mathlib

/-!
Shallow embedding of the Reversi/Othello engine from `src/reversi/src/main.rs`.

The board is the 8×8 char grid of the source (`'B'`, `'W'`, `'.'`), embedded
as a total function from integer coordinates to characters; out-of-range
cells exist in the embedding but every access in the engine is guarded by
`is_inside_board`, exactly as in the source.  The recursive `check` walk is
embedded with a fuel parameter: along any of the 8 compass directions a scan
starting inside the board leaves it after at most 8 steps, so the fixed fuel
of 16 is never exhausted (the guard `is_inside_board` stops the recursion).
The interactive `main` loop is embedded as a step function on a game state,
fed one (optional) line of input per iteration.
-/

namespace Reversi

/-- A board: cell characters indexed by (row, col) as integers, mirroring the
`[[char; N]; N]` array of the source (indices are cast from `i32`). -/
abbrev Board := Int → Int → Char

/-- Writing one cell of the board (the source's `board[i][j] = c`). -/
def bset (b : Board) (i j : Int) (c : Char) : Board :=
  fun i' j' => if i' = i ∧ j' = j then c else b i' j'

/-- Board size, the source's `const N: usize = 8`. -/
def N : Int := 8

/-- Source `is_inside_board`: `i >= 0 && i < N && j >= 0 && j < N`. -/
def is_inside_board (i j : Int) : Bool :=
  decide (0 ≤ i ∧ i < N ∧ 0 ≤ j ∧ j < N)

/-- The 8 compass directions, the source's `dirs` array in `is_valid_move`. -/
def dirs : List (Int × Int) :=
  [(-1, 0), (1, 0), (0, -1), (0, 1), (-1, -1), (-1, 1), (1, -1), (1, 1)]

/-- Fuelled embedding of the recursive source function `check`.  Returns the
found-flag together with the (possibly updated) board; the writes of the
source happen on the way out of the recursion, which the pure embedding
expresses by updating the board returned by the recursive call. -/
def checkGo (fuel : Nat) (ni nj : Int) (b : Board) (color oppo_color : Char)
    (update : Bool) (dir : Int × Int) : Bool × Board :=
  match fuel with
  | 0 => (false, b)
  | fuel + 1 =>
    if is_inside_board ni nj = true then
      if b ni nj = color then (true, b)
      else if b ni nj = oppo_color then
        match checkGo fuel (ni + dir.1) (nj + dir.2) b color oppo_color update dir with
        | (true, b2) => (true, if update then bset b2 ni nj color else b2)
        | (false, b2) => (false, b2)
      else (false, b)
    else (false, b)

/-- Source `check`: the fuel 16 strictly exceeds the longest possible scan
(at most 8 in-board steps before `is_inside_board` fails). -/
def check (ni nj : Int) (b : Board) (color oppo_color : Char)
    (update : Bool) (dir : Int × Int) : Bool × Board :=
  checkGo 16 ni nj b color oppo_color update dir

/-- One iteration of the `for dir in dirs` loop body of `is_valid_move`,
acting on the pair (found, board). -/
def ivmStep (bi bj : Int) (color oppo_color : Char) (update : Bool)
    (st : Bool × Board) (d : Int × Int) : Bool × Board :=
  if is_inside_board (bi + d.1) (bj + d.2) = true ∧
      st.2 (bi + d.1) (bj + d.2) = oppo_color then
    match check (bi + d.1) (bj + d.2) st.2 color oppo_color update d with
    | (true, b2) => (true, if update then bset b2 bi bj color else b2)
    | (false, b2) => (st.1, b2)
  else st

/-- Source `is_valid_move`: folds the direction loop over `dirs`, starting
from `found = false` and the given board. -/
def is_valid_move (bi bj : Int) (b : Board) (color oppo_color : Char)
    (update : Bool) : Bool × Board :=
  dirs.foldl (ivmStep bi bj color oppo_color update) (false, b)

/-- Source `init_board`: all `'.'`, then the four centre stones. -/
def init_board : Board :=
  bset (bset (bset (bset (fun _ _ => '.') 3 3 'W') 4 4 'W') 3 4 'B') 4 3 'B'

/-- Row-major list of the 64 grid coordinates, the iteration space of the
source's `for i in 0..N { for j in 0..N { ... } }` loops. -/
def cellsList : List (Int × Int) :=
  ((List.range 8).map (fun (i : Nat) =>
    (List.range 8).map (fun (j : Nat) => ((i : Int), (j : Int))))).flatten

/-- One iteration of the cell loop body of `analyze_board`, acting on the
accumulator (black, white, valid_cur, valid_oppo).  For an `'.'` cell the
source probes both colours on clones of the board with `update = false`. -/
def analyzeCell (b : Board) (color oppo : Char)
    (st : Int × Int × Bool × Bool) (p : Int × Int) : Int × Int × Bool × Bool :=
  if b p.1 p.2 = 'B' then (st.1 + 1, st.2.1, st.2.2.1, st.2.2.2)
  else if b p.1 p.2 = 'W' then (st.1, st.2.1 + 1, st.2.2.1, st.2.2.2)
  else if b p.1 p.2 = '.' then
    (st.1, st.2.1,
      st.2.2.1 || (is_valid_move p.1 p.2 b color oppo false).1,
      st.2.2.2 || (is_valid_move p.1 p.2 b oppo color false).1)
  else st

/-- Source `analyze_board`: scans the 64 cells in row-major order, counting
stones and checking move existence for both colours. -/
def analyze_board (b : Board) (color oppo : Char) : Int × Int × Bool × Bool :=
  cellsList.foldl (analyzeCell b color oppo) (0, 0, false, false)

/-- Terminal outcome, as printed by the source's `print_winner`. -/
inductive Outcome where
  | blackWins (margin : Int)
  | whiteWins (margin : Int)
  | draw
  deriving DecidableEq

/-- Source `print_winner`, with the printed message abstracted as `Outcome`. -/
def print_winner (black white : Int) : Outcome :=
  if black > white then .blackWins (black - white)
  else if white > black then .whiteWins (white - black)
  else .draw

/-- The source's `(chars[k] as u8).wrapping_sub(b'a')`: the char code is
truncated to a byte and `'a'` is subtracted with wrap-around mod 256. -/
def wrapSubA (ch : Char) : Nat :=
  (ch.toNat % 256 + 256 - 97) % 256

/-- Source `parse_move` on the (trimmed) input characters. -/
def parse_move (s : List Char) : Option (Nat × Nat) :=
  match s with
  | [c0, c1] =>
    let r := wrapSubA c0
    let c := wrapSubA c1
    if r < 8 ∧ c < 8 then some (r, c) else none
  | _ => none

/-- Current player from the turn counter (`if turn % 2 == 0 { 'B' } else { 'W' }`). -/
def curColor (turn : Nat) : Char := if turn % 2 = 0 then 'B' else 'W'

/-- Opposite player (`if cur == 'B' { 'W' } else { 'B' }`). -/
def oppoColor (cur : Char) : Char := if cur = 'B' then 'W' else 'B'

/-- The input-handling tail of a loop iteration in `main` once the current
player is known to have a valid move: read a line (`none` models a
`read_line` error, which `continue`s), parse it, and attempt the move.  The
board returned by `is_valid_move` is threaded through in both branches, as
the source mutates the board in place. -/
def applyInput (b : Board) (turn : Nat) (input : Option (List Char)) :
    Board × Nat :=
  let cur := curColor turn
  let oppo := oppoColor cur
  match input with
  | none => (b, turn)
  | some s =>
    match parse_move s with
    | some (r, c) =>
      if b r c = '.' then
        match is_valid_move r c b cur oppo true with
        | (true, b2) => (b2, turn + 1)
        | (false, b2) => (b2, turn)
      else (b, turn)
    | none => (b, turn)

/-- Game state of `main`'s loop: the mutable `board`, `turn` and
`pass_count` while running, or the final counts passed to `print_winner`
after `break`. -/
inductive GState where
  | playing (board : Board) (turn : Nat) (passCount : Nat)
  | finished (black : Int) (white : Int)

/-- One iteration of `main`'s `loop`, consuming at most one line of input.
A `finished` state is terminal. -/
def step (g : GState) (input : Option (List Char)) : GState :=
  match g with
  | .finished bl wh => .finished bl wh
  | .playing b turn passCount =>
    let cur := curColor turn
    let oppo := oppoColor cur
    match analyze_board b cur oppo with
    | (cb, cw, validCur, _) =>
      if validCur = false then
        if passCount + 1 = 2 then .finished cb cw
        else .playing b (turn + 1) (passCount + 1)
      else
        match applyInput b turn input with
        | (b2, turn2) => .playing b2 turn2 0

/-- States reachable by `main` from the initial board. -/
inductive Reachable : GState → Prop where
  | init : Reachable (.playing init_board 0 0)
  | step {g : GState} (input : Option (List Char)) :
      Reachable g → Reachable (step g input)

/-- Does direction `d` make the move at `(bi, bj)` capture, evaluated on
board `b` by the pure (`update = false`) scan: the loop-body guard of
`is_valid_move` conjoined with the result of `check` from the adjacent cell. -/
def dirFound (b : Board) (bi bj : Int) (color oppo : Char) (d : Int × Int) : Bool :=
  is_inside_board (bi + d.1) (bj + d.2) &&
    decide (b (bi + d.1) (bj + d.2) = oppo) &&
    (check (bi + d.1) (bj + d.2) b color oppo false d).1

/-- Length of the contiguous run of `oppo` cells starting at `(ni, nj)` in
direction `d` (fuelled like `checkGo`; the run is at most 8 cells long). -/
def flipLenGo (fuel : Nat) (ni nj : Int) (b : Board) (oppo : Char)
    (d : Int × Int) : Nat :=
  match fuel with
  | 0 => 0
  | fuel + 1 =>
    if is_inside_board ni nj = true ∧ b ni nj = oppo then
      flipLenGo fuel (ni + d.1) (nj + d.2) b oppo d + 1
    else 0

/-- Number of cells a successful direction `d` flips for a move at
`(bi, bj)`: the run of opposing cells starting at the adjacent cell. -/
def flipLen (b : Board) (bi bj : Int) (oppo : Char) (d : Int × Int) : Nat :=
  flipLenGo 16 (bi + d.1) (bj + d.2) b oppo d

/-- Membership in the combined flip set of a move at `(bi, bj)`: some
direction captures and `p` is one of the `flipLen` opposing cells it
brackets. -/
def inFlipsB (b : Board) (bi bj : Int) (color oppo : Char) (p : Int × Int) : Bool :=
  dirs.any fun d =>
    dirFound b bi bj color oppo d &&
      (List.range (flipLen b bi bj oppo d + 1)).any fun m =>
        decide (1 ≤ m) && decide (p = (bi + (m : Int) * d.1, bj + (m : Int) * d.2))

/-- Number of cells of colour `ch` on the 8×8 grid, as `analyze_board`
counts them. -/
def countColor (b : Board) (ch : Char) : Nat :=
  (cellsList.filter fun p => decide (b p.1 p.2 = ch)).length

/-- Total number of stones on the grid. -/
def stoneCount (b : Board) : Nat := countColor b 'B' + countColor b 'W'

/-- Cardinality of the combined flip set of a move. -/
def flipCount (b : Board) (bi bj : Int) (color oppo : Char) : Nat :=
  (cellsList.filter (inFlipsB b bi bj color oppo)).length

/-- An input line that `main` rejects in state `(b, turn)`: a read error,
an unparsable line, an occupied target cell, or an empty target with no
capturing direction. -/
def rejectedInput (b : Board) (turn : Nat) (input : Option (List Char)) : Bool :=
  match input with
  | none => true
  | some s =>
    match parse_move s with
    | none => true
    | some (r, c) =>
      !(decide (b r c = '.') &&
        (is_valid_move r c b (curColor turn) (oppoColor (curColor turn)) false).1)

/-- Modelled from the spec (section 4.2, the bracketing rule): scanning
outward from `(bi, bj)` along direction `d` meets `k ≥ 1` contiguous cells
of the opposing colour immediately adjacent, followed by a cell of the
mover's colour, all before running off the board or hitting an empty cell.
This is the spec-side description that claim C1 compares against the
code-side `is_valid_move`/`check`. -/
def bracketSpec (b : Board) (bi bj : Int) (color oppo : Char) (d : Int × Int) : Prop :=
  ∃ k : Nat, 1 ≤ k ∧
    (∀ m : Nat, 1 ≤ m → m ≤ k →
      is_inside_board (bi + (m : Int) * d.1) (bj + (m : Int) * d.2) = true ∧
        b (bi + (m : Int) * d.1) (bj + (m : Int) * d.2) = oppo) ∧
    is_inside_board (bi + ((k : Int) + 1) * d.1) (bj + ((k : Int) + 1) * d.2) = true ∧
    b (bi + ((k : Int) + 1) * d.1) (bj + ((k : Int) + 1) * d.2) = color

/-- The all-empty board (used as a concrete state with no legal moves). -/
def emptyBoard : Board := fun _ _ => '.'

/-- Every grid cell holds one of the three legal cell characters. -/
def boardOK (b : Board) : Prop :=
  ∀ p ∈ cellsList, b p.1 p.2 = 'B' ∨ b p.1 p.2 = 'W' ∨ b p.1 p.2 = '.'

/-- Cells written by the direction loop of `is_valid_move` (with
`update = true`) after processing the prefix `P` of `dirs`, relative to the
original board `b`: the target cell once some processed direction has
captured, plus the bracketed run of every capturing processed direction. -/
def writtenP (b : Board) (bi bj : Int) (c o : Char) (P : List (Int × Int))
    (i j : Int) : Prop :=
  (i = bi ∧ j = bj ∧ P.any (dirFound b bi bj c o) = true) ∨
  ∃ d ∈ P, dirFound b bi bj c o d = true ∧
    ∃ m : Nat, 1 ≤ m ∧ m ≤ flipLen b bi bj o d ∧
      i = bi + (m : Int) * d.1 ∧ j = bj + (m : Int) * d.2

/-- Inductive invariant of `main`'s loop: the pass counter is at most 1,
the board holds only legal cell characters with at most 64 stones, and the
turn counter is bounded through the stone count (every resolved turn either
places a stone or is a pass that cannot immediately repeat). -/
def loopInv (b : Board) (turn passCount : Nat) : Prop :=
  passCount ≤ 1 ∧ boardOK b ∧ stoneCount b ≤ 64 ∧
  ((turn : Int) + 1 ≤ 2 * ((stoneCount b : Int) - 4) + 1 + passCount ∨
   ((analyze_board b (curColor turn) (oppoColor (curColor turn))).2.2.1 = true ∧
    (turn : Int) ≤ 2 * ((stoneCount b : Int) - 4) + 1))

/-! ### Basic facts about the direction list and rays -/

/-- Rays in two different compass directions never meet away from their
common origin. -/
theorem dirs_ray_disjoint {d d' : Int × Int} (hd : d ∈ dirs) (hd' : d' ∈ dirs)
    (hne : d ≠ d') (m m' : Nat) (hm : 1 ≤ m) (hm' : 1 ≤ m')
    (h1 : (m : Int) * d.1 = (m' : Int) * d'.1)
    (h2 : (m : Int) * d.2 = (m' : Int) * d'.2) : False := by
  fin_cases hd <;> fin_cases hd' <;>
    first
      | exact hne rfl
      | (simp only [mul_neg_one, mul_zero, mul_one] at h1 h2; omega)

/-- A ray never returns to its origin. -/
theorem dirs_ray_ne_zero {d : Int × Int} (hd : d ∈ dirs) (m : Nat) (hm : 1 ≤ m) :
    ¬((m : Int) * d.1 = 0 ∧ (m : Int) * d.2 = 0) := by
  fin_cases hd <;> simp <;> omega

/-- Two in-board cells of a ray are at most 7 steps apart: the scan of
`check` stays inside the board for at most 8 positions. -/
theorem inside_ray_bound {d : Int × Int} (hd : d ∈ dirs) (ni nj : Int) (k : Nat)
    (h0 : is_inside_board ni nj = true)
    (hk : is_inside_board (ni + (k : Int) * d.1) (nj + (k : Int) * d.2) = true) :
    k ≤ 7 := by
  simp only [is_inside_board, N, decide_eq_true_eq] at h0 hk
  fin_cases hd <;> simp only [mul_neg_one, mul_zero, mul_one, add_zero] at hk <;> omega

/-! ### Behaviour of the recursive scan `check` -/

/-- With `update = false` the scan never writes: the board comes back
unchanged. -/
theorem checkGo_false_snd (f : Nat) :
    ∀ (ni nj : Int) (b : Board) (c o : Char) (d : Int × Int),
      (checkGo f ni nj b c o false d).2 = b := by
  induction f with
  | zero => intro ni nj b c o d; rfl
  | succ f ih =>
    intro ni nj b c o d
    have hrec := ih (ni + d.1) (nj + d.2) b c o d
    simp only [checkGo]
    rcases hcg : checkGo f (ni + d.1) (nj + d.2) b c o false d with ⟨fd, b2⟩
    rw [hcg] at hrec
    split
    · split
      · rfl
      · split
        · cases fd <;> simpa using hrec
        · rfl
    · rfl

/-- The found-flag of the scan does not depend on the `update` flag. -/
theorem checkGo_fst_update (f : Nat) :
    ∀ (ni nj : Int) (b : Board) (c o : Char) (u : Bool) (d : Int × Int),
      (checkGo f ni nj b c o u d).1 = (checkGo f ni nj b c o false d).1 := by
  induction f with
  | zero => intros; rfl
  | succ f ih =>
    intro ni nj b c o u d
    have hrec := ih (ni + d.1) (nj + d.2) b c o u d
    simp only [checkGo]
    rcases hu : checkGo f (ni + d.1) (nj + d.2) b c o u d with ⟨fu, bu⟩
    rcases hf : checkGo f (ni + d.1) (nj + d.2) b c o false d with ⟨ff, bf⟩
    rw [hu, hf] at hrec
    simp only at hrec
    subst hrec
    split
    · split
      · rfl
      · split
        · cases fu <;> rfl
        · rfl
    · rfl

/-- If the scan fails, even with `update = true` the board comes back
unchanged (all writes of `check` happen on successful return paths). -/
theorem checkGo_true_fail_snd (f : Nat) :
    ∀ (ni nj : Int) (b : Board) (c o : Char) (d : Int × Int),
      (checkGo f ni nj b c o true d).1 = false →
      (checkGo f ni nj b c o true d).2 = b := by
  induction f with
  | zero => intro ni nj b c o d _; rfl
  | succ f ih =>
    intro ni nj b c o d
    by_cases hin : is_inside_board ni nj = true
    · by_cases hc : b ni nj = c
      · simp only [checkGo, if_pos hin, if_pos hc]
        intro h
        simp at h
      · by_cases ho : b ni nj = o
        · simp only [checkGo, if_pos hin, if_neg hc, if_pos ho]
          rcases hcg : checkGo f (ni + d.1) (nj + d.2) b c o true d with ⟨fd, b2⟩
          cases fd
          · intro _
            have hrec := ih (ni + d.1) (nj + d.2) b c o d
            rw [hcg] at hrec
            simpa using hrec (by simp)
          · intro h
            simp at h
        · simp only [checkGo, if_pos hin, if_neg hc, if_neg ho]
          intro _
          trivial
    · simp only [checkGo, if_neg hin]
      intro _
      trivial

/-- The found-flag only depends on the board's values along the ray. -/
theorem checkGo_congr (f : Nat) :
    ∀ (ni nj : Int) (b1 b2 : Board) (c o : Char) (u : Bool) (d : Int × Int),
      (∀ m : Nat, b1 (ni + (m : Int) * d.1) (nj + (m : Int) * d.2)
          = b2 (ni + (m : Int) * d.1) (nj + (m : Int) * d.2)) →
      (checkGo f ni nj b1 c o u d).1 = (checkGo f ni nj b2 c o u d).1 := by
  induction f with
  | zero => intros; rfl
  | succ f ih =>
    intro ni nj b1 b2 c o u d hag
    have h0 : b1 ni nj = b2 ni nj := by simpa using hag 0
    have hsh : ∀ m : Nat,
        b1 (ni + d.1 + (m : Int) * d.1) (nj + d.2 + (m : Int) * d.2)
          = b2 (ni + d.1 + (m : Int) * d.1) (nj + d.2 + (m : Int) * d.2) := by
      intro m
      have h := hag (m + 1)
      push_cast at h
      have e1 : ni + ((m : Int) + 1) * d.1 = ni + d.1 + (m : Int) * d.1 := by ring
      have e2 : nj + ((m : Int) + 1) * d.2 = nj + d.2 + (m : Int) * d.2 := by ring
      rw [e1, e2] at h
      exact h
    have hrec := ih (ni + d.1) (nj + d.2) b1 b2 c o u d hsh
    simp only [checkGo]
    rcases h1 : checkGo f (ni + d.1) (nj + d.2) b1 c o u d with ⟨f1, bb1⟩
    rcases h2 : checkGo f (ni + d.1) (nj + d.2) b2 c o u d with ⟨f2, bb2⟩
    rw [h1, h2] at hrec
    simp only at hrec
    subst hrec
    rw [h0]
    split
    · split
      · rfl
      · split
        · cases f1 <;> rfl
        · rfl
    · rfl

/-- The run length only depends on the board's values along the ray. -/
theorem flipLenGo_congr (f : Nat) :
    ∀ (ni nj : Int) (b1 b2 : Board) (o : Char) (d : Int × Int),
      (∀ m : Nat, b1 (ni + (m : Int) * d.1) (nj + (m : Int) * d.2)
          = b2 (ni + (m : Int) * d.1) (nj + (m : Int) * d.2)) →
      flipLenGo f ni nj b1 o d = flipLenGo f ni nj b2 o d := by
  induction f with
  | zero => intros; rfl
  | succ f ih =>
    intro ni nj b1 b2 o d hag
    have h0 : b1 ni nj = b2 ni nj := by simpa using hag 0
    have hsh : ∀ m : Nat,
        b1 (ni + d.1 + (m : Int) * d.1) (nj + d.2 + (m : Int) * d.2)
          = b2 (ni + d.1 + (m : Int) * d.1) (nj + d.2 + (m : Int) * d.2) := by
      intro m
      have h := hag (m + 1)
      push_cast at h
      have e1 : ni + ((m : Int) + 1) * d.1 = ni + d.1 + (m : Int) * d.1 := by ring
      have e2 : nj + ((m : Int) + 1) * d.2 = nj + d.2 + (m : Int) * d.2 := by ring
      rw [e1, e2] at h
      exact h
    have hrec := ih (ni + d.1) (nj + d.2) b1 b2 o d hsh
    simp only [flipLenGo]
    rw [h0, hrec]

/-- Every cell counted by the run length is an in-board cell of the
opposing colour. -/
theorem flipLenGo_spec (f : Nat) :
    ∀ (ni nj : Int) (b : Board) (o : Char) (d : Int × Int) (m : Nat),
      m < flipLenGo f ni nj b o d →
      is_inside_board (ni + (m : Int) * d.1) (nj + (m : Int) * d.2) = true ∧
        b (ni + (m : Int) * d.1) (nj + (m : Int) * d.2) = o := by
  induction f with
  | zero => intro ni nj b o d m hm; simp [flipLenGo] at hm
  | succ f ih =>
    intro ni nj b o d m hm
    simp only [flipLenGo] at hm
    split at hm
    · next hh =>
      cases m with
      | zero => simpa using hh
      | succ m =>
        have := ih (ni + d.1) (nj + d.2) b o d m (by omega)
        have e1 : ni + d.1 + (m : Int) * d.1 = ni + ((m : Nat) + 1 : Nat) * d.1 := by
          push_cast; ring
        have e2 : nj + d.2 + (m : Int) * d.2 = nj + ((m : Nat) + 1 : Nat) * d.2 := by
          push_cast; ring
        rw [e1, e2] at this
        exact this
    · omega

/-- What a successful `update = true` scan writes: exactly the first
`flipLenGo` cells of the ray become the mover's colour, everything else is
untouched. -/
theorem checkGo_true_overlay (f : Nat) :
    ∀ (ni nj : Int) (b : Board) (c o : Char) (d : Int × Int), c ≠ o →
      (checkGo f ni nj b c o true d).1 = true →
      ∀ i j : Int,
        ((∃ m : Nat, m < flipLenGo f ni nj b o d ∧
            i = ni + (m : Int) * d.1 ∧ j = nj + (m : Int) * d.2) →
          (checkGo f ni nj b c o true d).2 i j = c) ∧
        ((∀ m : Nat, m < flipLenGo f ni nj b o d →
            ¬(i = ni + (m : Int) * d.1 ∧ j = nj + (m : Int) * d.2)) →
          (checkGo f ni nj b c o true d).2 i j = b i j) := by
  induction f with
  | zero =>
    intro ni nj b c o d hco hfound
    simp [checkGo] at hfound
  | succ f ih =>
    intro ni nj b c o d hco hfound i j
    by_cases hin : is_inside_board ni nj = true
    · by_cases hc : b ni nj = c
      · have hno : ¬(is_inside_board ni nj = true ∧ b ni nj = o) := by
          intro hx
          exact hco (by rw [← hc, hx.2])
        have hflip0 : flipLenGo (f + 1) ni nj b o d = 0 := by
          simp only [flipLenGo, if_neg hno]
        have e : checkGo (f + 1) ni nj b c o true d = (true, b) := by
          simp only [checkGo, if_pos hin, if_pos hc]
        constructor
        · rintro ⟨m, hm, -⟩
          rw [hflip0] at hm
          omega
        · intro _
          rw [e]
      · by_cases ho : b ni nj = o
        · have hflip : flipLenGo (f + 1) ni nj b o d
              = flipLenGo f (ni + d.1) (nj + d.2) b o d + 1 := by
            simp only [flipLenGo, if_pos (And.intro hin ho)]
          rcases hcg : checkGo f (ni + d.1) (nj + d.2) b c o true d with ⟨fd, b2⟩
          cases fd
          · have e : checkGo (f + 1) ni nj b c o true d = (false, b2) := by
              simp [checkGo, if_pos hin, if_neg hc, if_pos ho, hcg]
            rw [e] at hfound
            simp at hfound
          · have e : checkGo (f + 1) ni nj b c o true d
                = (true, bset b2 ni nj c) := by
              simp [checkGo, if_pos hin, if_neg hc, if_pos ho, hcg]
            have hrecfound : (checkGo f (ni + d.1) (nj + d.2) b c o true d).1 = true := by
              rw [hcg]
            have ihh := fun i j => ih (ni + d.1) (nj + d.2) b c o d hco hrecfound i j
            rw [hcg] at ihh
            simp only at ihh
            constructor
            · rintro ⟨m, hm, hi, hj⟩
              rw [hflip] at hm
              rw [e]
              simp only
              cases m with
              | zero =>
                simp only [Nat.cast_zero, zero_mul, add_zero] at hi hj
                simp [bset, hi, hj]
              | succ m =>
                by_cases heq : i = ni ∧ j = nj
                · simp [bset, heq]
                · rw [bset, if_neg heq]
                  refine (ihh i j).1 ⟨m, by omega, ?_, ?_⟩
                  · rw [hi]; push_cast; ring
                  · rw [hj]; push_cast; ring
            · intro hnone
              rw [hflip] at hnone
              rw [e]
              simp only
              have h0 : ¬(i = ni ∧ j = nj) := by
                have := hnone 0 (by omega)
                simpa using this
              rw [bset, if_neg h0]
              refine (ihh i j).2 ?_
              intro m hm
              have := hnone (m + 1) (by omega)
              intro hx
              apply this
              constructor
              · rw [hx.1]; push_cast; ring
              · rw [hx.2]; push_cast; ring
        · have e : checkGo (f + 1) ni nj b c o true d = (false, b) := by
            simp only [checkGo, if_pos hin, if_neg hc, if_neg ho]
          rw [e] at hfound
          simp at hfound
    · have e : checkGo (f + 1) ni nj b c o true d = (false, b) := by
        simp only [checkGo, if_neg hin]
      rw [e] at hfound
      simp at hfound

/-- If the scan succeeds there is a bracketing run: `k` in-board opposing
cells followed by an in-board cell of the mover's colour. -/
theorem checkGo_found_exists (f : Nat) :
    ∀ (ni nj : Int) (b : Board) (c o : Char) (u : Bool) (d : Int × Int),
      (checkGo f ni nj b c o u d).1 = true →
      ∃ k : Nat,
        (∀ m : Nat, m < k →
          is_inside_board (ni + (m : Int) * d.1) (nj + (m : Int) * d.2) = true ∧
            b (ni + (m : Int) * d.1) (nj + (m : Int) * d.2) = o) ∧
        is_inside_board (ni + (k : Int) * d.1) (nj + (k : Int) * d.2) = true ∧
        b (ni + (k : Int) * d.1) (nj + (k : Int) * d.2) = c := by
  induction f with
  | zero =>
    intro ni nj b c o u d h
    simp [checkGo] at h
  | succ f ih =>
    intro ni nj b c o u d h
    by_cases hin : is_inside_board ni nj = true
    · by_cases hc : b ni nj = c
      · refine ⟨0, fun m hm => absurd hm (by omega), ?_, ?_⟩
        · simpa using hin
        · simpa using hc
      · by_cases ho : b ni nj = o
        · rcases hcg : checkGo f (ni + d.1) (nj + d.2) b c o u d with ⟨fd, b2⟩
          cases fd
          · have e : checkGo (f + 1) ni nj b c o u d = (false, b2) := by
              simp [checkGo, if_pos hin, if_neg hc, if_pos ho, hcg]
            rw [e] at h
            simp at h
          · have hrec : (checkGo f (ni + d.1) (nj + d.2) b c o u d).1 = true := by
              rw [hcg]
            obtain ⟨k, hchain, hkin, hkc⟩ := ih (ni + d.1) (nj + d.2) b c o u d hrec
            refine ⟨k + 1, ?_, ?_, ?_⟩
            · intro m hm
              cases m with
              | zero =>
                constructor
                · simpa using hin
                · simpa using ho
              | succ m =>
                have hm' := hchain m (by omega)
                have e1 : ni + d.1 + (m : Int) * d.1
                    = ni + ((m + 1 : Nat) : Int) * d.1 := by push_cast; ring
                have e2 : nj + d.2 + (m : Int) * d.2
                    = nj + ((m + 1 : Nat) : Int) * d.2 := by push_cast; ring
                rw [e1, e2] at hm'
                exact hm'
            · have e1 : ni + d.1 + (k : Int) * d.1
                  = ni + ((k + 1 : Nat) : Int) * d.1 := by push_cast; ring
              have e2 : nj + d.2 + (k : Int) * d.2
                  = nj + ((k + 1 : Nat) : Int) * d.2 := by push_cast; ring
              rw [e1, e2] at hkin
              exact hkin
            · have e1 : ni + d.1 + (k : Int) * d.1
                  = ni + ((k + 1 : Nat) : Int) * d.1 := by push_cast; ring
              have e2 : nj + d.2 + (k : Int) * d.2
                  = nj + ((k + 1 : Nat) : Int) * d.2 := by push_cast; ring
              rw [e1, e2] at hkc
              exact hkc
        · have e : checkGo (f + 1) ni nj b c o u d = (false, b) := by
            simp only [checkGo, if_pos hin, if_neg hc, if_neg ho]
          rw [e] at h
          simp at h
    · have e : checkGo (f + 1) ni nj b c o u d = (false, b) := by
        simp only [checkGo, if_neg hin]
      rw [e] at h
      simp at h

/-- Conversely, a bracketing run shorter than the fuel makes the scan
succeed. -/
theorem checkGo_exists_found (c o : Char) (hco : c ≠ o) (d : Int × Int) :
    ∀ (k f : Nat) (ni nj : Int) (b : Board) (u : Bool), k < f →
      (∀ m : Nat, m < k →
        is_inside_board (ni + (m : Int) * d.1) (nj + (m : Int) * d.2) = true ∧
          b (ni + (m : Int) * d.1) (nj + (m : Int) * d.2) = o) →
      is_inside_board (ni + (k : Int) * d.1) (nj + (k : Int) * d.2) = true →
      b (ni + (k : Int) * d.1) (nj + (k : Int) * d.2) = c →
      (checkGo f ni nj b c o u d).1 = true := by
  intro k
  induction k with
  | zero =>
    intro f ni nj b u hf hchain hkin hkc
    cases f with
    | zero => omega
    | succ f =>
      simp only [Nat.cast_zero, zero_mul, add_zero] at hkin hkc
      simp [checkGo, if_pos hkin, hkc]
  | succ k ih =>
    intro f ni nj b u hf hchain hkin hkc
    cases f with
    | zero => omega
    | succ f =>
      have h0 := hchain 0 (by omega)
      simp only [Nat.cast_zero, zero_mul, add_zero] at h0
      have hbc : ¬b ni nj = c := by
        rw [h0.2]
        exact fun hx => hco hx.symm
      have hrec : (checkGo f (ni + d.1) (nj + d.2) b c o u d).1 = true := by
        apply ih f (ni + d.1) (nj + d.2) b u (by omega)
        · intro m hm
          have hm' := hchain (m + 1) (by omega)
          have e1 : ni + ((m + 1 : Nat) : Int) * d.1
              = ni + d.1 + (m : Int) * d.1 := by push_cast; ring
          have e2 : nj + ((m + 1 : Nat) : Int) * d.2
              = nj + d.2 + (m : Int) * d.2 := by push_cast; ring
          rw [e1, e2] at hm'
          exact hm'
        · have e1 : ni + ((k + 1 : Nat) : Int) * d.1
              = ni + d.1 + (k : Int) * d.1 := by push_cast; ring
          have e2 : nj + ((k + 1 : Nat) : Int) * d.2
              = nj + d.2 + (k : Int) * d.2 := by push_cast; ring
          rw [e1, e2] at hkin
          exact hkin
        · have e1 : ni + ((k + 1 : Nat) : Int) * d.1
              = ni + d.1 + (k : Int) * d.1 := by push_cast; ring
          have e2 : nj + ((k + 1 : Nat) : Int) * d.2
              = nj + d.2 + (k : Int) * d.2 := by push_cast; ring
          rw [e1, e2] at hkc
          exact hkc
      rcases hcg : checkGo f (ni + d.1) (nj + d.2) b c o u d with ⟨fd, b2⟩
      rw [hcg] at hrec
      simp only at hrec
      subst hrec
      simp [checkGo, if_pos h0.1, if_neg hbc, if_pos h0.2, hcg]

/-- The loop-body test of `is_valid_move` for one direction agrees with the
spec's bracketing rule. -/
theorem dirFound_iff_bracketSpec (b : Board) (bi bj : Int) (c o : Char)
    (hco : c ≠ o) {d : Int × Int} (hd : d ∈ dirs) :
    dirFound b bi bj c o d = true ↔ bracketSpec b bi bj c o d := by
  constructor
  · intro h
    simp only [dirFound, Bool.and_eq_true, decide_eq_true_eq] at h
    obtain ⟨⟨hin, hoppo⟩, hfound⟩ := h
    obtain ⟨k, hchain, hkin, hkc⟩ := checkGo_found_exists 16 (bi + d.1) (bj + d.2) b c o false d hfound
    have hk1 : 1 ≤ k := by
      rcases Nat.eq_zero_or_pos k with h0 | h1
      · subst h0
        simp only [Nat.cast_zero, zero_mul, add_zero] at hkc
        exfalso
        apply hco
        rw [← hkc]
        exact hoppo
      · exact h1
    refine ⟨k, hk1, ?_, ?_, ?_⟩
    · intro m hm1 hmk
      obtain ⟨m', rfl⟩ : ∃ m', m = m' + 1 := ⟨m - 1, by omega⟩
      have hm' := hchain m' (by omega)
      have e1 : bi + d.1 + (m' : Int) * d.1
          = bi + ((m' + 1 : Nat) : Int) * d.1 := by push_cast; ring
      have e2 : bj + d.2 + (m' : Int) * d.2
          = bj + ((m' + 1 : Nat) : Int) * d.2 := by push_cast; ring
      rw [e1, e2] at hm'
      exact hm'
    · have e1 : bi + d.1 + (k : Int) * d.1 = bi + ((k : Int) + 1) * d.1 := by ring
      have e2 : bj + d.2 + (k : Int) * d.2 = bj + ((k : Int) + 1) * d.2 := by ring
      rw [e1, e2] at hkin
      exact hkin
    · have e1 : bi + d.1 + (k : Int) * d.1 = bi + ((k : Int) + 1) * d.1 := by ring
      have e2 : bj + d.2 + (k : Int) * d.2 = bj + ((k : Int) + 1) * d.2 := by ring
      rw [e1, e2] at hkc
      exact hkc
  · rintro ⟨k, hk1, hchain, hkin, hkc⟩
    have hadj := hchain 1 le_rfl hk1
    simp only [Nat.cast_one, one_mul] at hadj
    have hkin' : is_inside_board (bi + d.1 + (k : Int) * d.1)
        (bj + d.2 + (k : Int) * d.2) = true := by
      have e1 : bi + d.1 + (k : Int) * d.1 = bi + ((k : Int) + 1) * d.1 := by ring
      have e2 : bj + d.2 + (k : Int) * d.2 = bj + ((k : Int) + 1) * d.2 := by ring
      rw [e1, e2]
      exact hkin
    have hkc' : b (bi + d.1 + (k : Int) * d.1) (bj + d.2 + (k : Int) * d.2) = c := by
      have e1 : bi + d.1 + (k : Int) * d.1 = bi + ((k : Int) + 1) * d.1 := by ring
      have e2 : bj + d.2 + (k : Int) * d.2 = bj + ((k : Int) + 1) * d.2 := by ring
      rw [e1, e2]
      exact hkc
    have hbound : k ≤ 7 :=
      inside_ray_bound hd (bi + d.1) (bj + d.2) k (by simpa using hadj.1) hkin'
    have hfound : (checkGo 16 (bi + d.1) (bj + d.2) b c o false d).1 = true := by
      apply checkGo_exists_found c o hco d k 16 (bi + d.1) (bj + d.2) b false (by omega)
      · intro m hm
        have hm' := hchain (m + 1) (by omega) (by omega)
        have e1 : bi + ((m + 1 : Nat) : Int) * d.1
            = bi + d.1 + (m : Int) * d.1 := by push_cast; ring
        have e2 : bj + ((m + 1 : Nat) : Int) * d.2
            = bj + d.2 + (m : Int) * d.2 := by push_cast; ring
        rw [e1, e2] at hm'
        exact hm'
      · exact hkin'
      · exact hkc'
    simp only [dirFound, Bool.and_eq_true, decide_eq_true_eq]
    exact ⟨⟨by simpa using hadj.1, hadj.2⟩, hfound⟩

/-! ### The direction loop of `is_valid_move` -/

/-- Stepping one position out along a ray. -/
theorem ray_shift (x dx : Int) (m : Nat) :
    x + dx + (m : Int) * dx = x + ((m + 1 : Nat) : Int) * dx := by
  push_cast
  ring

/-- With `update = false` a loop iteration just ORs the direction's test
into the found-flag and leaves the board alone. -/
theorem ivmStep_false (bi bj : Int) (c o : Char) (st : Bool × Board) (d : Int × Int) :
    ivmStep bi bj c o false st d = (st.1 || dirFound st.2 bi bj c o d, st.2) := by
  rcases st with ⟨fl, bc⟩
  simp only [ivmStep]
  by_cases hin : is_inside_board (bi + d.1) (bj + d.2) = true
  · by_cases ho : bc (bi + d.1) (bj + d.2) = o
    · rw [if_pos ⟨hin, ho⟩]
      rcases hcg : check (bi + d.1) (bj + d.2) bc c o false d with ⟨fd, b2⟩
      have hsnd : (check (bi + d.1) (bj + d.2) bc c o false d).2 = bc :=
        checkGo_false_snd 16 (bi + d.1) (bj + d.2) bc c o d
      rw [hcg] at hsnd
      simp only at hsnd
      subst hsnd
      cases fd
      · simp [dirFound, hin, ho, hcg]
      · simp [dirFound, hin, ho, hcg]
    · rw [if_neg (fun hx => ho hx.2)]
      simp [dirFound, hin, ho]
  · rw [if_neg (fun hx => hin hx.1)]
    simp [dirFound, hin]

/-- The whole loop with `update = false`: the found-flag accumulates the
per-direction tests and the board is returned unchanged. -/
theorem ivm_false_foldl (bi bj : Int) (c o : Char) :
    ∀ (L : List (Int × Int)) (st : Bool × Board),
      L.foldl (ivmStep bi bj c o false) st
        = (st.1 || L.any (fun d => dirFound st.2 bi bj c o d), st.2) := by
  intro L
  induction L with
  | nil => intro st; simp
  | cons d L ih =>
    intro st
    rw [List.foldl_cons, ivmStep_false, ih]
    simp [Bool.or_assoc]

/-- `is_valid_move` with `update = false`: legality is the disjunction of
the 8 per-direction tests, and the board is returned unchanged. -/
theorem is_valid_move_false_eq (bi bj : Int) (b : Board) (c o : Char) :
    is_valid_move bi bj b c o false
      = (dirs.any (fun d => dirFound b bi bj c o d), b) := by
  rw [is_valid_move, ivm_false_foldl]
  simp

/-- Splitting the write-set over an appended direction. -/
theorem writtenP_append (b : Board) (bi bj : Int) (c o : Char)
    (P : List (Int × Int)) (d : Int × Int) (i j : Int) :
    writtenP b bi bj c o (P ++ [d]) i j ↔
      writtenP b bi bj c o P i j ∨
      (dirFound b bi bj c o d = true ∧
        ((i = bi ∧ j = bj) ∨
         ∃ m : Nat, 1 ≤ m ∧ m ≤ flipLen b bi bj o d ∧
           i = bi + (m : Int) * d.1 ∧ j = bj + (m : Int) * d.2)) := by
  simp only [writtenP, List.any_append, List.any_cons, List.any_nil,
    Bool.or_false, Bool.or_eq_true, List.mem_append, List.mem_singleton]
  constructor
  · rintro (⟨hi, hj, hany | hDF⟩ | ⟨d', hd'P | rfl, hDF, hm⟩)
    · exact Or.inl (Or.inl ⟨hi, hj, hany⟩)
    · exact Or.inr ⟨hDF, Or.inl ⟨hi, hj⟩⟩
    · exact Or.inl (Or.inr ⟨d', hd'P, hDF, hm⟩)
    · exact Or.inr ⟨hDF, Or.inr hm⟩
  · rintro ((⟨hi, hj, hany⟩ | ⟨d', hd'P, hDF, hm⟩) | ⟨hDF, ⟨hi, hj⟩ | hm⟩)
    · exact Or.inl ⟨hi, hj, Or.inl hany⟩
    · exact Or.inr ⟨d', Or.inl hd'P, hDF, hm⟩
    · exact Or.inl ⟨hi, hj, Or.inr hDF⟩
    · exact Or.inr ⟨d, Or.inr rfl, hDF, hm⟩

/-- A direction that does not capture adds nothing to the write-set. -/
theorem writtenP_append_nofound (b : Board) (bi bj : Int) (c o : Char)
    (P : List (Int × Int)) (d : Int × Int)
    (hDF : dirFound b bi bj c o d = false) (i j : Int) :
    writtenP b bi bj c o (P ++ [d]) i j ↔ writtenP b bi bj c o P i j := by
  rw [writtenP_append]
  constructor
  · rintro (h | ⟨hDF', -⟩)
    · exact h
    · rw [hDF] at hDF'
      cases hDF'
  · exact Or.inl

/-- One `update = true` loop iteration preserves the write-set invariant:
the found-flag tracks the processed directions and the board is the
original overlaid with the processed write-set. -/
theorem ivmStep_true_inv (b : Board) (bi bj : Int) (c o : Char) (hco : c ≠ o)
    (P : List (Int × Int)) (d : Int × Int) (hd : d ∈ dirs)
    (hP : ∀ d' ∈ P, d' ∈ dirs) (hdP : d ∉ P)
    (st : Bool × Board)
    (h1 : st.1 = P.any (dirFound b bi bj c o))
    (h2 : ∀ i j, (writtenP b bi bj c o P i j → st.2 i j = c) ∧
                 (¬writtenP b bi bj c o P i j → st.2 i j = b i j)) :
    (ivmStep bi bj c o true st d).1 = (P ++ [d]).any (dirFound b bi bj c o) ∧
    ∀ i j,
      (writtenP b bi bj c o (P ++ [d]) i j →
        (ivmStep bi bj c o true st d).2 i j = c) ∧
      (¬writtenP b bi bj c o (P ++ [d]) i j →
        (ivmStep bi bj c o true st d).2 i j = b i j) := by
  have hray : ∀ m : Nat, 1 ≤ m →
      st.2 (bi + (m : Int) * d.1) (bj + (m : Int) * d.2)
        = b (bi + (m : Int) * d.1) (bj + (m : Int) * d.2) := by
    intro m hm
    refine (h2 _ _).2 ?_
    rintro (⟨hi, hj, -⟩ | ⟨d', hd'P, -, m', hm'1, -, hi, hj⟩)
    · have e1 : (m : Int) * d.1 = 0 := by linarith
      have e2 : (m : Int) * d.2 = 0 := by linarith
      exact dirs_ray_ne_zero hd m hm ⟨e1, e2⟩
    · have e1 : (m : Int) * d.1 = (m' : Int) * d'.1 := by linarith
      have e2 : (m : Int) * d.2 = (m' : Int) * d'.2 := by linarith
      have hne : d ≠ d' := fun h => hdP (h ▸ hd'P)
      exact dirs_ray_disjoint hd (hP d' hd'P) hne m m' hm hm'1 e1 e2
  have hray' : ∀ m : Nat,
      st.2 (bi + d.1 + (m : Int) * d.1) (bj + d.2 + (m : Int) * d.2)
        = b (bi + d.1 + (m : Int) * d.1) (bj + d.2 + (m : Int) * d.2) := by
    intro m
    rw [ray_shift bi d.1 m, ray_shift bj d.2 m]
    exact hray (m + 1) (by omega)
  have hadj : st.2 (bi + d.1) (bj + d.2) = b (bi + d.1) (bj + d.2) := by
    simpa using hray 1 (by omega)
  have hfst : (checkGo 16 (bi + d.1) (bj + d.2) st.2 c o true d).1
      = (checkGo 16 (bi + d.1) (bj + d.2) b c o false d).1 := by
    rw [checkGo_fst_update 16]
    exact checkGo_congr 16 (bi + d.1) (bj + d.2) st.2 b c o false d hray'
  have hflip : flipLenGo 16 (bi + d.1) (bj + d.2) st.2 o d = flipLen b bi bj o d :=
    flipLenGo_congr 16 (bi + d.1) (bj + d.2) st.2 b o d hray'
  by_cases hin : is_inside_board (bi + d.1) (bj + d.2) = true
  · by_cases hsto : st.2 (bi + d.1) (bj + d.2) = o
    · have hbo : b (bi + d.1) (bj + d.2) = o := by rw [← hadj]; exact hsto
      have hDFeq : dirFound b bi bj c o d
          = (checkGo 16 (bi + d.1) (bj + d.2) b c o false d).1 := by
        simp [dirFound, hin, hbo, check]
      rcases hcg : check (bi + d.1) (bj + d.2) st.2 c o true d with ⟨fd, b2⟩
      have hcg' : checkGo 16 (bi + d.1) (bj + d.2) st.2 c o true d = (fd, b2) := hcg
      have hstep : ivmStep bi bj c o true st d
          = (if fd then (true, bset b2 bi bj c) else (st.1, b2)) := by
        simp only [ivmStep, if_pos (And.intro hin hsto), hcg]
        cases fd <;> simp
      cases fd
      · -- this direction does not capture
        have hDF : dirFound b bi bj c o d = false := by
          rw [hDFeq, ← hfst, hcg']
        have hb2 : b2 = st.2 := by
          have := checkGo_true_fail_snd 16 (bi + d.1) (bj + d.2) st.2 c o d
            (by rw [hcg'])
          rw [hcg'] at this
          exact this
        rw [hstep]
        simp only [if_neg (by simp : ¬(false = true))]
        constructor
        · simp [List.any_append, hDF, h1]
        · intro i j
          rw [writtenP_append_nofound b bi bj c o P d hDF]
          simpa [hb2] using h2 i j
      · -- this direction captures
        have hDF : dirFound b bi bj c o d = true := by
          rw [hDFeq, ← hfst, hcg']
        have hfound2 : (checkGo 16 (bi + d.1) (bj + d.2) st.2 c o true d).1 = true := by
          rw [hcg']
        have hov := checkGo_true_overlay 16 (bi + d.1) (bj + d.2) st.2 c o d hco hfound2
        rw [hcg'] at hov
        simp only at hov
        rw [hflip] at hov
        have hstep2 : ivmStep bi bj c o true st d = (true, bset b2 bi bj c) := by
          rw [hstep]
          rfl
        rw [hstep2]
        constructor
        · simp [List.any_append, hDF]
        · intro i j
          constructor
          · intro hw
            rw [writtenP_append] at hw
            rcases hw with hwP | ⟨-, horig | ⟨m, hm1, hmK, hi, hj⟩⟩
            · -- written by an earlier direction
              have hc2 : st.2 i j = c := (h2 i j).1 hwP
              by_cases horig : i = bi ∧ j = bj
              · simp [bset, horig]
              · simp only [bset]
                rw [if_neg horig]
                by_cases hflipd : ∃ m : Nat, m < flipLen b bi bj o d ∧
                    i = bi + d.1 + (m : Int) * d.1 ∧ j = bj + d.2 + (m : Int) * d.2
                · exact (hov i j).1 hflipd
                · rw [(hov i j).2 (fun m hm hx => hflipd ⟨m, hm, hx⟩)]
                  exact hc2
            · simp [bset, horig]
            · by_cases horig : i = bi ∧ j = bj
              · simp [bset, horig]
              · simp only [bset]
                rw [if_neg horig]
                refine (hov i j).1 ⟨m - 1, by omega, ?_, ?_⟩
                · rw [ray_shift bi d.1 (m - 1)]
                  have : m - 1 + 1 = m := by omega
                  rw [this]
                  exact hi
                · rw [ray_shift bj d.2 (m - 1)]
                  have : m - 1 + 1 = m := by omega
                  rw [this]
                  exact hj
          · intro hnw
            rw [writtenP_append] at hnw
            have hnwP : ¬writtenP b bi bj c o P i j := fun h => hnw (Or.inl h)
            have hnorig : ¬(i = bi ∧ j = bj) :=
              fun h => hnw (Or.inr ⟨hDF, Or.inl h⟩)
            have hnflip : ∀ m : Nat, 1 ≤ m → m ≤ flipLen b bi bj o d →
                ¬(i = bi + (m : Int) * d.1 ∧ j = bj + (m : Int) * d.2) :=
              fun m hm1 hm2 hx =>
                hnw (Or.inr ⟨hDF, Or.inr ⟨m, hm1, hm2, hx.1, hx.2⟩⟩)
            simp only [bset]
            rw [if_neg hnorig]
            rw [(hov i j).2 ?nf]
            · exact (h2 i j).2 hnwP
            case nf =>
              intro m hm hx
              refine hnflip (m + 1) (by omega) (by omega) ?_
              refine ⟨?_, ?_⟩
              · have h := hx.1
                rw [ray_shift bi d.1 m] at h
                exact h
              · have h := hx.2
                rw [ray_shift bj d.2 m] at h
                exact h
    · -- the adjacent cell is not the opponent's: the iteration is a no-op
      have hDF : dirFound b bi bj c o d = false := by
        have : ¬b (bi + d.1) (bj + d.2) = o := by rw [← hadj]; exact hsto
        simp [dirFound, this]
      have hstep : ivmStep bi bj c o true st d = st := by
        simp only [ivmStep]
        rw [if_neg (fun hx => hsto hx.2)]
      rw [hstep]
      constructor
      · simp [List.any_append, hDF, h1]
      · intro i j
        rw [writtenP_append_nofound b bi bj c o P d hDF]
        exact h2 i j
  · -- the adjacent cell is off the board: the iteration is a no-op
    have hDF : dirFound b bi bj c o d = false := by
      simp [dirFound, hin]
    have hstep : ivmStep bi bj c o true st d = st := by
      simp only [ivmStep]
      rw [if_neg (fun hx => hin hx.1)]
    rw [hstep]
    constructor
    · simp [List.any_append, hDF, h1]
    · intro i j
      rw [writtenP_append_nofound b bi bj c o P d hDF]
      exact h2 i j

/-- Folding the write-set invariant over the remaining directions. -/
theorem ivm_true_foldl (b : Board) (bi bj : Int) (c o : Char) (hco : c ≠ o) :
    ∀ (L P : List (Int × Int)), dirs = P ++ L →
      ∀ st : Bool × Board,
        st.1 = P.any (dirFound b bi bj c o) →
        (∀ i j, (writtenP b bi bj c o P i j → st.2 i j = c) ∧
                (¬writtenP b bi bj c o P i j → st.2 i j = b i j)) →
        (L.foldl (ivmStep bi bj c o true) st).1
            = (P ++ L).any (dirFound b bi bj c o) ∧
        ∀ i j,
          (writtenP b bi bj c o (P ++ L) i j →
            (L.foldl (ivmStep bi bj c o true) st).2 i j = c) ∧
          (¬writtenP b bi bj c o (P ++ L) i j →
            (L.foldl (ivmStep bi bj c o true) st).2 i j = b i j) := by
  intro L
  induction L with
  | nil =>
    intro P hPL st hst1 hst2
    simp only [List.foldl_nil, List.append_nil]
    exact ⟨hst1, hst2⟩
  | cons d L ih =>
    intro P hPL st hst1 hst2
    have hd : d ∈ dirs := by rw [hPL]; simp
    have hP : ∀ d' ∈ P, d' ∈ dirs := by
      intro d' hd'
      rw [hPL]
      exact List.mem_append_left _ hd'
    have hnodup : dirs.Nodup := by decide
    have hdP : d ∉ P := by
      rw [hPL] at hnodup
      intro hmem
      rcases List.nodup_append.mp hnodup with ⟨-, -, hdisj⟩
      exact hdisj hmem (List.mem_cons_self d L)
    have hstep := ivmStep_true_inv b bi bj c o hco P d hd hP hdP st hst1 hst2
    have hPL' : dirs = (P ++ [d]) ++ L := by rw [hPL]; simp
    have hmain := ih (P ++ [d]) hPL' (ivmStep bi bj c o true st d) hstep.1 hstep.2
    rw [List.foldl_cons]
    have eqn : (P ++ [d]) ++ L = P ++ d :: L := by simp
    rw [eqn] at hmain
    exact hmain

/-- Full characterisation of `is_valid_move` with `update = true`: the
found-flag is the same legality test as with `update = false`, and the
returned board is the original overlaid with the combined write-set. -/
theorem ivm_true_char (b : Board) (bi bj : Int) (c o : Char) (hco : c ≠ o) :
    (is_valid_move bi bj b c o true).1 = (is_valid_move bi bj b c o false).1 ∧
    ∀ i j,
      (writtenP b bi bj c o dirs i j →
        (is_valid_move bi bj b c o true).2 i j = c) ∧
      (¬writtenP b bi bj c o dirs i j →
        (is_valid_move bi bj b c o true).2 i j = b i j) := by
  have h := ivm_true_foldl b bi bj c o hco dirs [] rfl (false, b) (by simp) ?inv
  case inv =>
    intro i j
    constructor
    · intro hw
      rcases hw with ⟨-, -, hany⟩ | ⟨d', hd', -⟩
      · simp at hany
      · simp at hd'
    · intro _
      rfl
  obtain ⟨hfst, hboard⟩ := h
  simp only [List.nil_append] at hfst hboard
  constructor
  · rw [is_valid_move_false_eq]
    exact hfst
  · exact hboard

/-- A rejected `update = true` call leaves every cell unchanged. -/
theorem ivm_true_fail_snd (b : Board) (bi bj : Int) (c o : Char) (hco : c ≠ o)
    (h : (is_valid_move bi bj b c o true).1 = false) :
    ∀ i j, (is_valid_move bi bj b c o true).2 i j = b i j := by
  obtain ⟨hfst, hboard⟩ := ivm_true_char b bi bj c o hco
  have hany : dirs.any (fun d => dirFound b bi bj c o d) = false := by
    have := hfst.symm.trans h
    rw [is_valid_move_false_eq] at this
    exact this
  intro i j
  apply (hboard i j).2
  rintro (⟨-, -, hany'⟩ | ⟨d', hd', hDF, -⟩)
  · rw [hany] at hany'
    cases hany'
  · have : dirs.any (fun d => dirFound b bi bj c o d) = true :=
      List.any_eq_true.mpr ⟨d', hd', hDF⟩
    rw [hany] at this
    cases this

/-- Every cell of the board returned by an `update = true` call is either
unchanged or holds the mover's colour. -/
theorem ivm_true_cell_cases (b : Board) (bi bj : Int) (c o : Char) (hco : c ≠ o) :
    ∀ i j, (is_valid_move bi bj b c o true).2 i j = b i j ∨
           (is_valid_move bi bj b c o true).2 i j = c := by
  intro i j
  obtain ⟨-, hboard⟩ := ivm_true_char b bi bj c o hco
  rcases Classical.em (writtenP b bi bj c o dirs i j) with hw | hw
  · exact Or.inr ((hboard i j).1 hw)
  · exact Or.inl ((hboard i j).2 hw)

/-- Every written cell is the move's target or held the opposing colour. -/
theorem writtenP_dirs_cases (b : Board) (bi bj : Int) (c o : Char) (i j : Int)
    (hw : writtenP b bi bj c o dirs i j) :
    (i = bi ∧ j = bj) ∨ b i j = o := by
  rcases hw with ⟨hi, hj, -⟩ | ⟨d', hd', -, m, hm1, hm2, hi, hj⟩
  · exact Or.inl ⟨hi, hj⟩
  · right
    have hfl : m - 1 < flipLenGo 16 (bi + d'.1) (bj + d'.2) b o d' := by
      have he : flipLenGo 16 (bi + d'.1) (bj + d'.2) b o d' = flipLen b bi bj o d' := rfl
      omega
    have hcell := (flipLenGo_spec 16 (bi + d'.1) (bj + d'.2) b o d' (m - 1) hfl).2
    rw [ray_shift bi d'.1 (m - 1), ray_shift bj d'.2 (m - 1)] at hcell
    have e : m - 1 + 1 = m := by omega
    rw [e] at hcell
    rw [hi, hj]
    exact hcell

/-! ### Counting: `analyze_board` and the cell grid -/

/-- Characterisation of the cell-scanning fold of `analyze_board` over any
cell list: counts accumulate through filters, move existence through `any`. -/
theorem analyze_foldl (b : Board) (c o : Char) :
    ∀ (L : List (Int × Int)) (st : Int × Int × Bool × Bool),
      L.foldl (analyzeCell b c o) st
        = (st.1 + ((L.filter fun p => decide (b p.1 p.2 = 'B')).length : Int),
           st.2.1 + ((L.filter fun p => decide (b p.1 p.2 = 'W')).length : Int),
           st.2.2.1 || L.any (fun p => decide (b p.1 p.2 = '.')
              && (is_valid_move p.1 p.2 b c o false).1),
           st.2.2.2 || L.any (fun p => decide (b p.1 p.2 = '.')
              && (is_valid_move p.1 p.2 b o c false).1)) := by
  intro L
  induction L with
  | nil => intro st; simp
  | cons p L ih =>
    intro st
    rw [List.foldl_cons, ih]
    by_cases hB : b p.1 p.2 = 'B'
    · simp [analyzeCell, hB, List.filter_cons, Bool.or_assoc]
      omega
    · by_cases hW : b p.1 p.2 = 'W'
      · simp [analyzeCell, hB, hW, List.filter_cons, Bool.or_assoc]
        omega
      · by_cases hE : b p.1 p.2 = '.'
        · simp [analyzeCell, hB, hW, hE, List.filter_cons, Bool.or_assoc]
        · simp [analyzeCell, hB, hW, hE, List.filter_cons, Bool.or_assoc]

/-- `analyze_board` returns the two colour counts and the two
move-existence flags. -/
theorem analyze_board_eq (b : Board) (c o : Char) :
    analyze_board b c o
      = ((countColor b 'B' : Int), (countColor b 'W' : Int),
         cellsList.any (fun p => decide (b p.1 p.2 = '.')
            && (is_valid_move p.1 p.2 b c o false).1),
         cellsList.any (fun p => decide (b p.1 p.2 = '.')
            && (is_valid_move p.1 p.2 b o c false).1)) := by
  rw [analyze_board, analyze_foldl]
  simp [countColor]

/-- The `valid_cur` flag of `analyze_board` is the existence of a legal
move on some empty grid cell. -/
theorem analyze_valid_iff (b : Board) (c o : Char) :
    (analyze_board b c o).2.2.1 = true ↔
      ∃ p ∈ cellsList, b p.1 p.2 = '.'
        ∧ (is_valid_move p.1 p.2 b c o false).1 = true := by
  rw [analyze_board_eq]
  simp [List.any_eq_true]

/-- Membership in the row-major cell list is exactly being an in-board
coordinate pair. -/
theorem mem_cellsList (i j : Int) :
    (i, j) ∈ cellsList ↔ 0 ≤ i ∧ i < 8 ∧ 0 ≤ j ∧ j < 8 := by
  constructor
  · intro h
    simp only [cellsList, List.mem_flatten, List.mem_map, List.mem_range] at h
    obtain ⟨l, ⟨a, ha, rfl⟩, hmem⟩ := h
    simp only [List.mem_map, List.mem_range] at hmem
    obtain ⟨bb, hb, heq⟩ := hmem
    rw [Prod.mk.injEq] at heq
    obtain ⟨hi, hj⟩ := heq
    refine ⟨by omega, by omega, by omega, by omega⟩
  · rintro ⟨hi0, hi8, hj0, hj8⟩
    simp only [cellsList, List.mem_flatten, List.mem_map, List.mem_range]
    refine ⟨(List.range 8).map (fun (jj : Nat) => ((i.toNat : Int), (jj : Int))),
      ⟨i.toNat, by omega, rfl⟩, ?_⟩
    simp only [List.mem_map, List.mem_range]
    refine ⟨j.toNat, by omega, ?_⟩
    rw [Prod.mk.injEq]
    constructor
    · omega
    · omega

/-- The cell list has no duplicates. -/
theorem cellsList_nodup : cellsList.Nodup := by decide

/-- There are 64 grid cells. -/
theorem cellsList_length : cellsList.length = 64 := by decide

/-- On a board whose cells are all legal characters, the three colour
counts partition the cells. -/
theorem filter_three_partition (b : Board) :
    ∀ L : List (Int × Int),
      (∀ p ∈ L, b p.1 p.2 = 'B' ∨ b p.1 p.2 = 'W' ∨ b p.1 p.2 = '.') →
      (L.filter fun p => decide (b p.1 p.2 = 'B')).length
        + (L.filter fun p => decide (b p.1 p.2 = 'W')).length
        + (L.filter fun p => decide (b p.1 p.2 = '.')).length = L.length := by
  intro L
  induction L with
  | nil => intro _; simp
  | cons p L ih =>
    intro hall
    have hp := hall p (List.mem_cons_self p L)
    have htail := ih (fun q hq => hall q (List.mem_cons_of_mem p hq))
    rcases hp with h | h | h <;>
      simp [List.filter_cons, h] <;> omega

/-- Changing a predicate from false to true at exactly one element of a
duplicate-free list grows the filtered length by one. -/
theorem filter_length_update (q q' : (Int × Int) → Bool) (x : Int × Int) :
    ∀ L : List (Int × Int), L.Nodup → x ∈ L →
      (∀ p ∈ L, p ≠ x → q' p = q p) → q x = false → q' x = true →
      (L.filter q').length = (L.filter q).length + 1 := by
  intro L
  induction L with
  | nil => intro _ hx; cases hx
  | cons p L ih =>
    intro hnd hx hagree hqx hq'x
    obtain ⟨hpL, hndL⟩ := List.nodup_cons.mp hnd
    rcases List.mem_cons.mp hx with rfl | hxL
    · have htail : ∀ a ∈ L, q' a = q a := by
        intro a ha
        refine hagree a (List.mem_cons_of_mem _ ha) ?_
        intro h
        exact hpL (h ▸ ha)
      have hfe : L.filter q' = L.filter q := List.filter_congr htail
      simp [List.filter_cons, hq'x, hqx, hfe]
    · have hpx : p ≠ x := fun h => hpL (h ▸ hxL)
      have hq'p : q' p = q p := hagree p (List.mem_cons_self p L) hpx
      have ihh := ih hndL hxL
        (fun a ha hne => hagree a (List.mem_cons_of_mem p ha) hne) hqx hq'x
      cases hqp : q p <;>
        simp [List.filter_cons, hq'p, hqp, ihh]

/-! ### The game loop -/

/-- The two players are distinct characters in every turn. -/
theorem curColor_ne_oppo (t : Nat) : curColor t ≠ oppoColor (curColor t) := by
  by_cases h : t % 2 = 0 <;> simp [curColor, oppoColor, h]

/-- The current player is Black or White, with the matching opponent. -/
theorem curColor_pair (t : Nat) :
    (curColor t = 'B' ∧ oppoColor (curColor t) = 'W') ∨
    (curColor t = 'W' ∧ oppoColor (curColor t) = 'B') := by
  by_cases h : t % 2 = 0 <;> simp [curColor, oppoColor, h]

/-- Alternation: after a resolved turn the current player is the opponent. -/
theorem curColor_succ (t : Nat) : curColor (t + 1) = oppoColor (curColor t) := by
  by_cases h : t % 2 = 0 <;>
    simp [curColor, oppoColor, h, Nat.succ_mod_two_eq_zero_iff, Nat.succ_mod_two_eq_one_iff]

/-- Unfolding one iteration of the loop on a running state. -/
theorem step_eq (b : Board) (t pc : Nat) (input : Option (List Char)) :
    step (.playing b t pc) input =
      if (analyze_board b (curColor t) (oppoColor (curColor t))).2.2.1 = false then
        if pc + 1 = 2 then
          .finished (analyze_board b (curColor t) (oppoColor (curColor t))).1
            (analyze_board b (curColor t) (oppoColor (curColor t))).2.1
        else .playing b (t + 1) (pc + 1)
      else .playing (applyInput b t input).1 (applyInput b t input).2 0 := by
  simp only [step]

/-- A rejected input line leaves both the board and the turn unchanged. -/
theorem applyInput_rejected (b : Board) (t : Nat) (input : Option (List Char))
    (hrej : rejectedInput b t input = true) :
    applyInput b t input = (b, t) := by
  cases input with
  | none => rfl
  | some s =>
    simp only [applyInput]
    split
    next r c hp =>
      simp only [rejectedInput, hp] at hrej
      by_cases hdot : b (r : Int) (c : Int) = '.'
      · rw [if_pos hdot]
        have hco := curColor_ne_oppo t
        have hvf : (is_valid_move (r : Int) (c : Int) b (curColor t)
            (oppoColor (curColor t)) false).1 = false := by
          simpa [hdot] using hrej
        have hvt : (is_valid_move (r : Int) (c : Int) b (curColor t)
            (oppoColor (curColor t)) true).1 = false := by
          rw [(ivm_true_char b (r : Int) (c : Int) (curColor t)
            (oppoColor (curColor t)) hco).1]
          exact hvf
        rcases hivm : is_valid_move (r : Int) (c : Int) b (curColor t)
            (oppoColor (curColor t)) true with ⟨fv, b2⟩
        rw [hivm] at hvt
        simp only at hvt
        subst hvt
        have hb2 : b2 = b := by
          funext i j
          have h := ivm_true_fail_snd b (r : Int) (c : Int) (curColor t)
            (oppoColor (curColor t)) hco (by rw [hivm]) i j
          rw [hivm] at h
          exact h
        rw [hb2]
      · rw [if_neg hdot]
    next hp =>
      rfl

/-- The only way `applyInput` produces a new board is a successful
`is_valid_move` update at a parsed empty target cell, which also advances
the turn. -/
theorem applyInput_board_cases (b : Board) (t : Nat) (input : Option (List Char)) :
    ((applyInput b t input).1 = b ∧ (applyInput b t input).2 = t) ∨
    ∃ s r c, input = some s ∧ parse_move s = some (r, c) ∧
      b (r : Int) (c : Int) = '.' ∧
      (is_valid_move (r : Int) (c : Int) b (curColor t)
        (oppoColor (curColor t)) false).1 = true ∧
      (applyInput b t input).1
        = (is_valid_move (r : Int) (c : Int) b (curColor t)
            (oppoColor (curColor t)) true).2 ∧
      (applyInput b t input).2 = t + 1 := by
  cases input with
  | none => exact Or.inl ⟨rfl, rfl⟩
  | some s =>
    rcases hp : parse_move s with _ | ⟨r, c⟩
    · have happ : applyInput b t (some s) = (b, t) := by
        simp only [applyInput]
        split
        next r c hp' => rw [hp'] at hp; cases hp
        next hp' => rfl
      rw [happ]
      exact Or.inl ⟨rfl, rfl⟩
    · have happ : applyInput b t (some s)
          = if b (r : Int) (c : Int) = '.' then
              match is_valid_move (r : Int) (c : Int) b (curColor t)
                  (oppoColor (curColor t)) true with
              | (true, b2) => (b2, t + 1)
              | (false, b2) => (b2, t)
            else (b, t) := by
        simp only [applyInput]
        split
        next r' c' hp' =>
          rw [hp'] at hp
          injection hp with hp
          injection hp with h1 h2
          subst h1
          subst h2
          rfl
        next hp' => rw [hp'] at hp; cases hp
      rw [happ]
      by_cases hdot : b (r : Int) (c : Int) = '.'
      · rw [if_pos hdot]
        rcases hivm : is_valid_move (r : Int) (c : Int) b (curColor t)
            (oppoColor (curColor t)) true with ⟨fv, b2⟩
        cases fv
        · left
          have hb2 : b2 = b := by
            funext i j
            have h := ivm_true_fail_snd b (r : Int) (c : Int) (curColor t)
              (oppoColor (curColor t)) (curColor_ne_oppo t) (by rw [hivm]) i j
            rw [hivm] at h
            exact h
          exact ⟨hb2, rfl⟩
        · right
          refine ⟨s, r, c, rfl, hp, hdot, ?_, ?_, rfl⟩
          · have h := (ivm_true_char b (r : Int) (c : Int) (curColor t)
              (oppoColor (curColor t)) (curColor_ne_oppo t)).1
            rw [hivm] at h
            exact h.symm
          · rw [hivm]
      · rw [if_neg hdot]
        exact Or.inl ⟨rfl, rfl⟩

/-- The current player's character is never the empty-cell character. -/
theorem curColor_ne_dot (t : Nat) : curColor t ≠ '.' := by
  by_cases h : t % 2 = 0 <;> simp [curColor, h]

/-- The opponent's character is never the empty-cell character. -/
theorem oppoColor_ne_dot (t : Nat) : oppoColor (curColor t) ≠ '.' := by
  by_cases h : t % 2 = 0 <;> simp [curColor, oppoColor, h]

/-- Parsed coordinates are in range. -/
theorem parse_move_lt (s : List Char) (r c : Nat) (h : parse_move s = some (r, c)) :
    r < 8 ∧ c < 8 := by
  rcases s with _ | ⟨c0, s⟩
  · cases h
  rcases s with _ | ⟨c1, s⟩
  · cases h
  rcases s with _ | ⟨c2, s⟩
  · simp only [parse_move] at h
    by_cases hb : wrapSubA c0 < 8 ∧ wrapSubA c1 < 8
    · rw [if_pos hb] at h
      injection h with h
      rw [Prod.mk.injEq] at h
      omega
    · rw [if_neg hb] at h
      cases h
  · cases h

/-- Board cells stay within the legal character set across `applyInput`. -/
theorem boardOK_applyInput (b : Board) (t : Nat) (input : Option (List Char))
    (hok : boardOK b) : boardOK (applyInput b t input).1 := by
  rcases applyInput_board_cases b t input with ⟨hb, -⟩ | ⟨s, r, c, -, -, -, -, hb, -⟩
  · rw [hb]
    exact hok
  · rw [hb]
    intro p hp
    rcases ivm_true_cell_cases b (r : Int) (c : Int) (curColor t)
        (oppoColor (curColor t)) (curColor_ne_oppo t) p.1 p.2 with h2 | h2
    · rw [h2]
      exact hok p hp
    · rw [h2]
      rcases curColor_pair t with ⟨hB, -⟩ | ⟨hW, -⟩
      · rw [hB]
        exact Or.inl rfl
      · rw [hW]
        exact Or.inr (Or.inl rfl)

/-- A legal board carries at most 64 stones. -/
theorem stoneCount_le (b : Board) (hok : boardOK b) : stoneCount b ≤ 64 := by
  have h := filter_three_partition b cellsList hok
  have hlen := cellsList_length
  simp only [stoneCount, countColor]
  omega

/-- Applying a legal move at an empty in-board cell adds exactly one stone
and keeps the board legal. -/
theorem stoneCount_move (b : Board) (r c : Nat) (hr : r < 8) (hc : c < 8)
    (hok : boardOK b) (hdot : b (r : Int) (c : Int) = '.') (t : Nat)
    (hv : (is_valid_move (r : Int) (c : Int) b (curColor t)
        (oppoColor (curColor t)) false).1 = true) :
    stoneCount ((is_valid_move (r : Int) (c : Int) b (curColor t)
        (oppoColor (curColor t)) true).2) = stoneCount b + 1 ∧
    boardOK ((is_valid_move (r : Int) (c : Int) b (curColor t)
        (oppoColor (curColor t)) true).2) := by
  have hco := curColor_ne_oppo t
  obtain ⟨hfsteq, hoverlay⟩ :=
    ivm_true_char b (r : Int) (c : Int) (curColor t) (oppoColor (curColor t)) hco
  have hany : dirs.any
      (fun d => dirFound b (r : Int) (c : Int) (curColor t)
        (oppoColor (curColor t)) d) = true := by
    have h := is_valid_move_false_eq (r : Int) (c : Int) b (curColor t)
      (oppoColor (curColor t))
    rw [h] at hv
    exact hv
  have horig : (is_valid_move (r : Int) (c : Int) b (curColor t)
      (oppoColor (curColor t)) true).2 (r : Int) (c : Int) = curColor t :=
    (hoverlay _ _).1 (Or.inl ⟨rfl, rfl, hany⟩)
  have hok' : boardOK ((is_valid_move (r : Int) (c : Int) b (curColor t)
      (oppoColor (curColor t)) true).2) := by
    intro p hp
    rcases ivm_true_cell_cases b (r : Int) (c : Int) (curColor t)
        (oppoColor (curColor t)) hco p.1 p.2 with h2 | h2
    · rw [h2]
      exact hok p hp
    · rw [h2]
      rcases curColor_pair t with ⟨hB, -⟩ | ⟨hW, -⟩
      · rw [hB]
        exact Or.inl rfl
      · rw [hW]
        exact Or.inr (Or.inl rfl)
  refine ⟨?_, hok'⟩
  have hmem : ((r : Int), (c : Int)) ∈ cellsList :=
    (mem_cellsList _ _).mpr ⟨by omega, by omega, by omega, by omega⟩
  have hupd := filter_length_update
      (fun p => decide ((is_valid_move (r : Int) (c : Int) b (curColor t)
          (oppoColor (curColor t)) true).2 p.1 p.2 = '.'))
      (fun p => decide (b p.1 p.2 = '.'))
      ((r : Int), (c : Int)) cellsList cellsList_nodup hmem ?agree ?qx ?q'x
  case qx =>
    simp only [decide_eq_false_iff_not]
    rw [horig]
    exact curColor_ne_dot t
  case q'x =>
    simp only [decide_eq_true_eq]
    exact hdot
  case agree =>
    intro p hp hne
    show decide (b p.1 p.2 = '.')
        = decide ((is_valid_move (r : Int) (c : Int) b (curColor t)
            (oppoColor (curColor t)) true).2 p.1 p.2 = '.')
    rcases Classical.em (writtenP b (r : Int) (c : Int) (curColor t)
        (oppoColor (curColor t)) dirs p.1 p.2) with hw | hw
    · have hbp : b p.1 p.2 = oppoColor (curColor t) := by
        rcases writtenP_dirs_cases b (r : Int) (c : Int) (curColor t)
            (oppoColor (curColor t)) p.1 p.2 hw with ⟨h1, h2⟩ | h
        · exact absurd (Prod.ext h1 h2) hne
        · exact h
      have hb'p : (is_valid_move (r : Int) (c : Int) b (curColor t)
          (oppoColor (curColor t)) true).2 p.1 p.2 = curColor t :=
        (hoverlay p.1 p.2).1 hw
      rw [hbp, hb'p]
      simp [curColor_ne_dot t, oppoColor_ne_dot t]
    · have heqp : (is_valid_move (r : Int) (c : Int) b (curColor t)
          (oppoColor (curColor t)) true).2 p.1 p.2 = b p.1 p.2 :=
        (hoverlay p.1 p.2).2 hw
      rw [heqp]
  have hpart := filter_three_partition b cellsList hok
  have hpart' := filter_three_partition
    ((is_valid_move (r : Int) (c : Int) b (curColor t)
      (oppoColor (curColor t)) true).2) cellsList hok'
  have hlen := cellsList_length
  simp only [stoneCount, countColor]
  omega

/-- One loop iteration preserves the inductive invariant between running
states. -/
theorem loopInv_step (b : Board) (t pc : Nat) (input : Option (List Char))
    (hinv : loopInv b t pc) (b' : Board) (t' pc' : Nat)
    (hstep : step (.playing b t pc) input = .playing b' t' pc') :
    loopInv b' t' pc' := by
  obtain ⟨hpc, hok, hle, harith⟩ := hinv
  rw [step_eq] at hstep
  by_cases hvc : (analyze_board b (curColor t) (oppoColor (curColor t))).2.2.1 = false
  · rw [if_pos hvc] at hstep
    by_cases h2 : pc + 1 = 2
    · rw [if_pos h2] at hstep
      cases hstep
    · rw [if_neg h2] at hstep
      cases hstep
      refine ⟨by omega, hok, hle, ?_⟩
      left
      rcases harith with h | ⟨hval, -⟩
      · push_cast at h ⊢
        omega
      · rw [hval] at hvc
        cases hvc
  · rw [if_neg hvc] at hstep
    cases hstep
    have hvc' : (analyze_board b (curColor t) (oppoColor (curColor t))).2.2.1 = true := by
      rcases Bool.eq_false_or_eq_true
        ((analyze_board b (curColor t) (oppoColor (curColor t))).2.2.1) with h | h
      · exact h
      · exact absurd h hvc
    rcases applyInput_board_cases b t input with ⟨hb, ht⟩ |
        ⟨s, r, c, -, hp, hdot, hv, hb, ht⟩
    · rw [hb, ht]
      refine ⟨by omega, hok, hle, ?_⟩
      right
      refine ⟨hvc', ?_⟩
      rcases harith with h | ⟨-, h⟩ <;> omega
    · obtain ⟨hr, hc⟩ := parse_move_lt s r c hp
      obtain ⟨hs', hok'⟩ := stoneCount_move b r c hr hc hok hdot t hv
      rw [hb, ht]
      refine ⟨by omega, hok', stoneCount_le _ hok', ?_⟩
      left
      rw [hs']
      rcases harith with h | ⟨-, h⟩ <;> push_cast <;> omega

/-- Every reachable running state satisfies the loop invariant. -/
theorem reachable_loopInv {g : GState} (hg : Reachable g) :
    ∀ b t pc, g = .playing b t pc → loopInv b t pc := by
  induction hg with
  | init =>
    intro b t pc heq
    cases heq
    refine ⟨by omega, by unfold boardOK; decide, by decide, ?_⟩
    left
    have h4 : stoneCount init_board = 4 := by decide
    rw [h4]
    omega
  | @step g input hr ih =>
    intro b' t' pc' heq
    cases g with
    | finished bl wh =>
      simp only [step] at heq
      cases heq
    | playing b t pc =>
      exact loopInv_step b t pc input (ih b t pc rfl) b' t' pc' heq

/-- How one loop iteration can change a cell: not at all, an empty cell
taken by the current player, or an opposing stone flipped to the current
player. -/
theorem step_cell_evolution (b : Board) (t pc : Nat) (input : Option (List Char))
    (b' : Board) (t' pc' : Nat)
    (hstep : step (.playing b t pc) input = .playing b' t' pc') :
    ∀ i j, b' i j = b i j ∨
      (b i j = '.' ∧ b' i j = curColor t) ∨
      (b i j = oppoColor (curColor t) ∧ b' i j = curColor t) := by
  intro i j
  rw [step_eq] at hstep
  by_cases hvc : (analyze_board b (curColor t) (oppoColor (curColor t))).2.2.1 = false
  · rw [if_pos hvc] at hstep
    by_cases h2 : pc + 1 = 2
    · rw [if_pos h2] at hstep
      cases hstep
    · rw [if_neg h2] at hstep
      cases hstep
      exact Or.inl rfl
  · rw [if_neg hvc] at hstep
    cases hstep
    rcases applyInput_board_cases b t input with ⟨hb, -⟩ |
        ⟨s, r, c, -, -, hdot, hv, hb, -⟩
    · rw [hb]
      exact Or.inl rfl
    · rw [hb]
      have hco := curColor_ne_oppo t
      obtain ⟨-, hoverlay⟩ := ivm_true_char b (r : Int) (c : Int) (curColor t)
        (oppoColor (curColor t)) hco
      rcases Classical.em (writtenP b (r : Int) (c : Int) (curColor t)
          (oppoColor (curColor t)) dirs i j) with hw | hw
      · have hc' := (hoverlay i j).1 hw
        rcases writtenP_dirs_cases b (r : Int) (c : Int) (curColor t)
            (oppoColor (curColor t)) i j hw with ⟨h1, h2⟩ | hbij
        · refine Or.inr (Or.inl ⟨?_, hc'⟩)
          rw [h1, h2]
          exact hdot
        · exact Or.inr (Or.inr ⟨hbij, hc'⟩)
      · exact Or.inl ((hoverlay i j).2 hw)

/-- The executable flip-set membership test agrees with the ray clause of
the write-set. -/
theorem inFlipsB_iff_ray (b : Board) (bi bj : Int) (c o : Char) (i j : Int) :
    inFlipsB b bi bj c o (i, j) = true ↔
      ∃ d ∈ dirs, dirFound b bi bj c o d = true ∧
        ∃ m : Nat, 1 ≤ m ∧ m ≤ flipLen b bi bj o d ∧
          i = bi + (m : Int) * d.1 ∧ j = bj + (m : Int) * d.2 := by
  simp only [inFlipsB, List.any_eq_true, Bool.and_eq_true, decide_eq_true_eq,
    List.mem_range]
  constructor
  · rintro ⟨d, hd, hDF, m, hmlt, hm1, heq⟩
    rw [Prod.mk.injEq] at heq
    exact ⟨d, hd, hDF, m, hm1, by omega, heq.1, heq.2⟩
  · rintro ⟨d, hd, hDF, m, hm1, hmle, hi, hj⟩
    refine ⟨d, hd, hDF, m, by omega, hm1, ?_⟩
    rw [Prod.mk.injEq]
    exact ⟨hi, hj⟩

/-- A run of length at least one starts at an in-board opposing cell. -/
theorem flipLenGo_pos (f : Nat) (ni nj : Int) (b : Board) (o : Char)
    (d : Int × Int) (hin : is_inside_board ni nj = true) (ho : b ni nj = o) :
    1 ≤ flipLenGo (f + 1) ni nj b o d := by
  simp only [flipLenGo, if_pos (And.intro hin ho)]
  omega

/-! ### The claims -/

/-- C1: a move at an empty cell is legal (`is_valid_move` with
`update = false` returns `true`) iff along at least one of the 8 compass
directions the adjacent cells hold one or more contiguous opposing stones
followed by a stone of the mover's colour, all inside the board — i.e. iff
the union of the per-direction flip sets is non-empty (`bracketSpec`
demands `k ≥ 1` bracketed opposing cells). -/
theorem claim_c1 (b : Board) (bi bj : Int) (color oppo : Char)
    (hcol : (color = 'B' ∧ oppo = 'W') ∨ (color = 'W' ∧ oppo = 'B'))
    (hE : b bi bj = '.') :
    (is_valid_move bi bj b color oppo false).1 = true ↔
      ∃ d ∈ dirs, bracketSpec b bi bj color oppo d := by
  have hco : color ≠ oppo := by
    rcases hcol with ⟨h1, h2⟩ | ⟨h1, h2⟩ <;> rw [h1, h2] <;> decide
  rw [is_valid_move_false_eq]
  show dirs.any (fun d => dirFound b bi bj color oppo d) = true ↔ _
  rw [List.any_eq_true]
  constructor
  · rintro ⟨d, hd, hDF⟩
    exact ⟨d, hd, (dirFound_iff_bracketSpec b bi bj color oppo hco hd).mp hDF⟩
  · rintro ⟨d, hd, hbr⟩
    exact ⟨d, hd, (dirFound_iff_bracketSpec b bi bj color oppo hco hd).mpr hbr⟩

/-- C1 witness: on the initial board, Black's move at (2,3) is legal and
indeed brackets the White stone at (3,3) against the Black stone at
(4,3). -/
theorem claim_c1_witness :
    ((('B' = 'B' ∧ 'W' = 'W') ∨ ('B' = 'W' ∧ 'W' = 'B')) ∧ init_board 2 3 = '.') ∧
    (∃ d ∈ dirs, bracketSpec init_board 2 3 'B' 'W' d) :=
  ⟨⟨Or.inl ⟨rfl, rfl⟩, by decide⟩,
    (claim_c1 init_board 2 3 'B' 'W' (Or.inl ⟨rfl, rfl⟩) (by decide)).mp (by decide)⟩

/-- C10: the legality queries never modify the board: `check` and
`is_valid_move` with `update = false` return the input board unchanged, so
`analyze_board`'s scan over the cloned boards leaves the game board and its
stone counts exactly as they were. -/
theorem claim_c10 (bi bj ni nj : Int) (b : Board) (color oppo : Char)
    (d : Int × Int) :
    (check ni nj b color oppo false d).2 = b ∧
    (is_valid_move bi bj b color oppo false).2 = b := by
  constructor
  · exact checkGo_false_snd 16 ni nj b color oppo d
  · rw [is_valid_move_false_eq]

/-- C2: applying a legal move (`is_valid_move` with `update = true`)
returns `true`, sets the target cell to the mover's colour, sets exactly
the cells of the combined per-direction flip set to the mover's colour and
leaves every other cell unchanged; moreover, across the whole game loop
the only board mutation is exactly such a call on a parsed, empty, legal
target cell — every other iteration returns the board unchanged. -/
theorem claim_c2 (b : Board) (bi bj : Int) (color oppo : Char)
    (hcol : (color = 'B' ∧ oppo = 'W') ∨ (color = 'W' ∧ oppo = 'B'))
    (hv : (is_valid_move bi bj b color oppo false).1 = true) :
    (is_valid_move bi bj b color oppo true).1 = true ∧
    (is_valid_move bi bj b color oppo true).2 bi bj = color ∧
    (∀ i j, inFlipsB b bi bj color oppo (i, j) = true →
      (is_valid_move bi bj b color oppo true).2 i j = color) ∧
    (∀ i j, ¬(i = bi ∧ j = bj) → inFlipsB b bi bj color oppo (i, j) = false →
      (is_valid_move bi bj b color oppo true).2 i j = b i j) ∧
    (∀ (b0 : Board) (t pc : Nat) (input : Option (List Char))
        (b' : Board) (t' pc' : Nat),
      step (.playing b0 t pc) input = .playing b' t' pc' →
      b' = b0 ∨
      ∃ s r c, input = some s ∧ parse_move s = some (r, c) ∧
        b0 (r : Int) (c : Int) = '.' ∧
        (is_valid_move (r : Int) (c : Int) b0 (curColor t)
          (oppoColor (curColor t)) false).1 = true ∧
        b' = (is_valid_move (r : Int) (c : Int) b0 (curColor t)
          (oppoColor (curColor t)) true).2) := by
  have hco : color ≠ oppo := by
    rcases hcol with ⟨h1, h2⟩ | ⟨h1, h2⟩ <;> rw [h1, h2] <;> decide
  obtain ⟨hfst, hoverlay⟩ := ivm_true_char b bi bj color oppo hco
  have hany : dirs.any (fun d => dirFound b bi bj color oppo d) = true := by
    rw [is_valid_move_false_eq] at hv
    exact hv
  refine ⟨by rw [hfst]; exact hv, ?_, ?_, ?_, ?_⟩
  · exact (hoverlay bi bj).1 (Or.inl ⟨rfl, rfl, hany⟩)
  · intro i j hf
    exact (hoverlay i j).1 (Or.inr ((inFlipsB_iff_ray b bi bj color oppo i j).mp hf))
  · intro i j hnorig hf
    apply (hoverlay i j).2
    rintro (⟨hi, hj, -⟩ | hray)
    · exact hnorig ⟨hi, hj⟩
    · rw [(inFlipsB_iff_ray b bi bj color oppo i j).mpr hray] at hf
      cases hf
  · intro b0 t pc input b' t' pc' hstep
    rw [step_eq] at hstep
    by_cases hvc : (analyze_board b0 (curColor t) (oppoColor (curColor t))).2.2.1 = false
    · rw [if_pos hvc] at hstep
      by_cases h2 : pc + 1 = 2
      · rw [if_pos h2] at hstep
        cases hstep
      · rw [if_neg h2] at hstep
        cases hstep
        exact Or.inl rfl
    · rw [if_neg hvc] at hstep
      cases hstep
      rcases applyInput_board_cases b0 t input with ⟨hb, -⟩ |
          ⟨s, r, c, hinp, hp, hdot, hval, hb, -⟩
      · exact Or.inl hb
      · exact Or.inr ⟨s, r, c, hinp, hp, hdot, hval, hb⟩

/-- C2 witness: Black's opening move at (2,3) on the initial board. -/
theorem claim_c2_witness :
    ((('B' = 'B' ∧ 'W' = 'W') ∨ ('B' = 'W' ∧ 'W' = 'B')) ∧
      (is_valid_move 2 3 init_board 'B' 'W' false).1 = true) ∧
    ((is_valid_move 2 3 init_board 'B' 'W' true).1 = true ∧
     (is_valid_move 2 3 init_board 'B' 'W' true).2 2 3 = 'B' ∧
     (∀ i j, inFlipsB init_board 2 3 'B' 'W' (i, j) = true →
       (is_valid_move 2 3 init_board 'B' 'W' true).2 i j = 'B') ∧
     (∀ i j, ¬(i = 2 ∧ j = 3) → inFlipsB init_board 2 3 'B' 'W' (i, j) = false →
       (is_valid_move 2 3 init_board 'B' 'W' true).2 i j = init_board i j) ∧
     (∀ (b0 : Board) (t pc : Nat) (input : Option (List Char))
         (b' : Board) (t' pc' : Nat),
       step (.playing b0 t pc) input = .playing b' t' pc' →
       b' = b0 ∨
       ∃ s r c, input = some s ∧ parse_move s = some (r, c) ∧
         b0 (r : Int) (c : Int) = '.' ∧
         (is_valid_move (r : Int) (c : Int) b0 (curColor t)
           (oppoColor (curColor t)) false).1 = true ∧
         b' = (is_valid_move (r : Int) (c : Int) b0 (curColor t)
           (oppoColor (curColor t)) true).2)) :=
  ⟨⟨Or.inl ⟨rfl, rfl⟩, by decide⟩,
   claim_c2 init_board 2 3 'B' 'W' (Or.inl ⟨rfl, rfl⟩) (by decide)⟩

/-- C3: the state machine of the loop.  The move-existence flag of
`analyze_board` is exactly "the current player has a legal move on some
empty cell"; with no legal move the pass counter is incremented without
touching the board, ending the game on the second consecutive pass with
the outcome computed from the current stone counts; with a legal move the
pass counter is reset to 0 before the move is accepted; and a resolved
turn hands the move to the opponent. -/
theorem claim_c3 (b : Board) (t pc : Nat) (input : Option (List Char)) :
    ((analyze_board b (curColor t) (oppoColor (curColor t))).2.2.1 = true ↔
      ∃ p ∈ cellsList, b p.1 p.2 = '.' ∧
        (is_valid_move p.1 p.2 b (curColor t)
          (oppoColor (curColor t)) false).1 = true) ∧
    ((analyze_board b (curColor t) (oppoColor (curColor t))).2.2.1 = false →
      step (.playing b t pc) input =
        if pc + 1 = 2 then
          .finished (countColor b 'B' : Int) (countColor b 'W' : Int)
        else .playing b (t + 1) (pc + 1)) ∧
    ((analyze_board b (curColor t) (oppoColor (curColor t))).2.2.1 = true →
      ∃ b2 t2, step (.playing b t pc) input = .playing b2 t2 0) ∧
    curColor (t + 1) = oppoColor (curColor t) := by
  refine ⟨analyze_valid_iff b (curColor t) (oppoColor (curColor t)), ?_, ?_,
    curColor_succ t⟩
  · intro hvc
    rw [step_eq, if_pos hvc]
    by_cases h2 : pc + 1 = 2 <;> simp [h2, analyze_board_eq]
  · intro hvc
    rw [step_eq, if_neg (by simp [hvc])]
    exact ⟨_, _, rfl⟩

/-- C3 witness: the all-empty board, where the mover has no legal move. -/
theorem claim_c3_witness :
    ((analyze_board emptyBoard (curColor 0) (oppoColor (curColor 0))).2.2.1 = true ↔
      ∃ p ∈ cellsList, emptyBoard p.1 p.2 = '.' ∧
        (is_valid_move p.1 p.2 emptyBoard (curColor 0)
          (oppoColor (curColor 0)) false).1 = true) ∧
    ((analyze_board emptyBoard (curColor 0) (oppoColor (curColor 0))).2.2.1 = false →
      step (.playing emptyBoard 0 0) none =
        if 0 + 1 = 2 then
          .finished (countColor emptyBoard 'B' : Int) (countColor emptyBoard 'W' : Int)
        else .playing emptyBoard (0 + 1) (0 + 1)) ∧
    ((analyze_board emptyBoard (curColor 0) (oppoColor (curColor 0))).2.2.1 = true →
      ∃ b2 t2, step (.playing emptyBoard 0 0) none = .playing b2 t2 0) ∧
    curColor (0 + 1) = oppoColor (curColor 0) :=
  claim_c3 emptyBoard 0 0 none

/-- C4: while the current player has a legal move, a rejected request (read
error, unparsable or out-of-range coordinates, occupied target, or empty
target with empty flip set) leaves the board and the turn unchanged and
the loop back in the same awaiting state with pass counter 0 (the value the
spec's reset gave it before the input was accepted); retrying the same
rejected input changes nothing. -/
theorem claim_c4 (b : Board) (t pc : Nat) (input : Option (List Char))
    (hvalid : (analyze_board b (curColor t) (oppoColor (curColor t))).2.2.1 = true)
    (hrej : rejectedInput b t input = true) :
    step (.playing b t pc) input = .playing b t 0 ∧
    step (.playing b t 0) input = .playing b t 0 := by
  have happ := applyInput_rejected b t input hrej
  constructor <;>
    · rw [step_eq, if_neg (by simp [hvalid]), happ]

/-- C4 witness: rejecting the out-of-range line "zz" on the initial
board. -/
theorem claim_c4_witness :
    ((analyze_board init_board (curColor 0) (oppoColor (curColor 0))).2.2.1 = true ∧
      rejectedInput init_board 0 (some ['z', 'z']) = true) ∧
    (step (.playing init_board 0 0) (some ['z', 'z']) = .playing init_board 0 0 ∧
     step (.playing init_board 0 0) (some ['z', 'z']) = .playing init_board 0 0) :=
  ⟨⟨by decide, by decide⟩,
   claim_c4 init_board 0 0 (some ['z', 'z']) (by decide) (by decide)⟩

/-- C5 counterexample: Black's opening move at (2,3) on the initial board
flips exactly one White stone, so the claimed growth of
`black + white` by `1 + flips = 2` is wrong: the total only grows by 1
(a flip recolours a stone, it does not add one). -/
theorem claim_c5_counterexample :
    stoneCount init_board = 4 ∧
    flipCount init_board 2 3 'B' 'W' = 1 ∧
    stoneCount ((is_valid_move 2 3 init_board 'B' 'W' true).2) = 5 ∧
    ¬(stoneCount ((is_valid_move 2 3 init_board 'B' 'W' true).2)
        = stoneCount init_board + (1 + flipCount init_board 2 3 'B' 'W')) := by
  exact ⟨by decide, by decide, by decide, by decide⟩

/-- C5 (amended): on every reachable board, a legal move strictly
increases `black_count + white_count` by exactly 1, and the number of
flipped cells is at least 1. -/
theorem claim_c5 (b : Board) (t pc : Nat) (r c : Nat)
    (hreach : Reachable (.playing b t pc)) (hr : r < 8) (hc : c < 8)
    (hdot : b (r : Int) (c : Int) = '.')
    (hv : (is_valid_move (r : Int) (c : Int) b (curColor t)
        (oppoColor (curColor t)) false).1 = true) :
    stoneCount ((is_valid_move (r : Int) (c : Int) b (curColor t)
        (oppoColor (curColor t)) true).2) = stoneCount b + 1 ∧
    1 ≤ flipCount b (r : Int) (c : Int) (curColor t) (oppoColor (curColor t)) := by
  have hok := (reachable_loopInv hreach b t pc rfl).2.1
  obtain ⟨hs, -⟩ := stoneCount_move b r c hr hc hok hdot t hv
  refine ⟨hs, ?_⟩
  have hany : dirs.any (fun d => dirFound b (r : Int) (c : Int) (curColor t)
      (oppoColor (curColor t)) d) = true := by
    rw [is_valid_move_false_eq] at hv
    exact hv
  obtain ⟨d, hd, hDF⟩ := List.any_eq_true.mp hany
  have hDF' := hDF
  simp only [dirFound, Bool.and_eq_true, decide_eq_true_eq] at hDF'
  obtain ⟨⟨hin, hoppo⟩, -⟩ := hDF'
  have hfl : 1 ≤ flipLen b (r : Int) (c : Int) (oppoColor (curColor t)) d :=
    flipLenGo_pos 15 ((r : Int) + d.1) ((c : Int) + d.2) b
      (oppoColor (curColor t)) d hin hoppo
  have hmem : ((r : Int) + d.1, (c : Int) + d.2) ∈ cellsList := by
    rw [mem_cellsList]
    simp only [is_inside_board, N, decide_eq_true_eq] at hin
    refine ⟨by omega, by omega, by omega, by omega⟩
  have hinf : inFlipsB b (r : Int) (c : Int) (curColor t) (oppoColor (curColor t))
      ((r : Int) + d.1, (c : Int) + d.2) = true := by
    rw [inFlipsB_iff_ray]
    refine ⟨d, hd, hDF, 1, le_rfl, hfl, ?_, ?_⟩
    · push_cast
      ring
    · push_cast
      ring
  exact List.length_pos_of_mem (List.mem_filter.mpr (And.intro hmem hinf))

/-- C5 witness: Black's opening move at (2,3) from the initial state. -/
theorem claim_c5_witness :
    (Reachable (.playing init_board 0 0) ∧ (2 : Nat) < 8 ∧ (3 : Nat) < 8 ∧
      init_board ((2 : Nat) : Int) ((3 : Nat) : Int) = '.' ∧
      (is_valid_move ((2 : Nat) : Int) ((3 : Nat) : Int) init_board (curColor 0)
        (oppoColor (curColor 0)) false).1 = true) ∧
    (stoneCount ((is_valid_move ((2 : Nat) : Int) ((3 : Nat) : Int) init_board
        (curColor 0) (oppoColor (curColor 0)) true).2) = stoneCount init_board + 1 ∧
     1 ≤ flipCount init_board ((2 : Nat) : Int) ((3 : Nat) : Int) (curColor 0)
        (oppoColor (curColor 0))) :=
  ⟨⟨Reachable.init, by decide, by decide, by decide, by decide⟩,
   claim_c5 init_board 0 0 2 3 Reachable.init (by decide) (by decide)
     (by decide) (by decide)⟩

/-- C6: the turn counter counts the resolved turns (moves and passes) since
the start, and on every reachable running state it is bounded — at most 60
placements can ever happen and passes interleave one-per-move, so the
sequence of resolved turns cannot be infinite (121 bounds it). -/
theorem claim_c6 (b : Board) (t pc : Nat)
    (hreach : Reachable (.playing b t pc)) : t ≤ 121 := by
  obtain ⟨hpc, -, hle, harith⟩ := reachable_loopInv hreach b t pc rfl
  rcases harith with h | ⟨-, h⟩ <;> omega

/-- C6 witness: the initial state. -/
theorem claim_c6_witness : (0 : Nat) ≤ 121 :=
  claim_c6 init_board 0 0 Reachable.init

/-- C7: on every reachable running state the 64 grid cells each hold
exactly one of Black, White, Empty, and the three counts sum to 64. -/
theorem claim_c7 (b : Board) (t pc : Nat)
    (hreach : Reachable (.playing b t pc)) :
    countColor b 'B' + countColor b 'W' + countColor b '.' = 64 ∧
    ∀ p ∈ cellsList, b p.1 p.2 = 'B' ∨ b p.1 p.2 = 'W' ∨ b p.1 p.2 = '.' := by
  have hok := (reachable_loopInv hreach b t pc rfl).2.1
  refine ⟨?_, hok⟩
  have h := filter_three_partition b cellsList hok
  have hlen := cellsList_length
  simp only [countColor]
  omega

/-- C7 witness: the initial state. -/
theorem claim_c7_witness :
    countColor init_board 'B' + countColor init_board 'W'
      + countColor init_board '.' = 64 ∧
    ∀ p ∈ cellsList, init_board p.1 p.2 = 'B' ∨ init_board p.1 p.2 = 'W' ∨
      init_board p.1 p.2 = '.' :=
  claim_c7 init_board 0 0 Reachable.init

/-- C8: at creation (3,3) and (4,4) are White, (3,4) and (4,3) Black, all
other cells Empty; and every loop iteration from a reachable state changes
a cell only from Empty to the mover's colour or from the opponent's colour
to the mover's colour — in particular a coloured cell never becomes Empty
again. -/
theorem claim_c8 :
    (init_board 3 3 = 'W' ∧ init_board 4 4 = 'W' ∧ init_board 3 4 = 'B' ∧
     init_board 4 3 = 'B' ∧
     ∀ p ∈ cellsList, p ≠ ((3 : Int), (3 : Int)) → p ≠ ((4 : Int), (4 : Int)) →
       p ≠ ((3 : Int), (4 : Int)) → p ≠ ((4 : Int), (3 : Int)) →
       init_board p.1 p.2 = '.') ∧
    ∀ (b : Board) (t pc : Nat) (input : Option (List Char))
      (b' : Board) (t' pc' : Nat),
      Reachable (.playing b t pc) →
      step (.playing b t pc) input = .playing b' t' pc' →
      ∀ i j, (b' i j = b i j ∨
        (b i j = '.' ∧ b' i j = curColor t) ∨
        (b i j = oppoColor (curColor t) ∧ b' i j = curColor t)) ∧
        (b i j ≠ '.' → b' i j ≠ '.') := by
  constructor
  · exact ⟨by decide, by decide, by decide, by decide, by decide⟩
  · intro b t pc input b' t' pc' _ hstep i j
    have hev := step_cell_evolution b t pc input b' t' pc' hstep i j
    refine ⟨hev, ?_⟩
    intro hne
    rcases hev with h | ⟨h1, h2⟩ | ⟨h1, h2⟩
    · rw [h]
      exact hne
    · rw [h2]
      exact curColor_ne_dot t
    · rw [h2]
      exact curColor_ne_dot t

/-- C9: when the game ends (second consecutive pass), the recorded outcome
inputs are exactly the final stone counts of the board, and `print_winner`
compares them alone: the greater count wins by the positive difference and
equal counts draw. -/
theorem claim_c9 (b : Board) (t : Nat) (input : Option (List Char))
    (hnov : (analyze_board b (curColor t) (oppoColor (curColor t))).2.2.1 = false) :
    step (.playing b t 1) input
      = .finished (countColor b 'B' : Int) (countColor b 'W' : Int) ∧
    ∀ bl wh : Int,
      (bl > wh → print_winner bl wh = .blackWins (bl - wh) ∧ 0 < bl - wh) ∧
      (wh > bl → print_winner bl wh = .whiteWins (wh - bl) ∧ 0 < wh - bl) ∧
      (bl = wh → print_winner bl wh = .draw) := by
  constructor
  · rw [step_eq, if_pos hnov]
    simp [analyze_board_eq]
  · intro bl wh
    refine ⟨?_, ?_, ?_⟩
    · intro h
      rw [print_winner, if_pos h]
      exact ⟨rfl, by omega⟩
    · intro h
      rw [print_winner, if_neg (by omega), if_pos h]
      exact ⟨rfl, by omega⟩
    · intro h
      rw [print_winner, if_neg (by omega), if_neg (by omega)]

/-- C9 witness: a second consecutive pass on the all-empty board. -/
theorem claim_c9_witness :
    (analyze_board emptyBoard (curColor 0) (oppoColor (curColor 0))).2.2.1 = false ∧
    (step (.playing emptyBoard 0 1) none
      = .finished (countColor emptyBoard 'B' : Int) (countColor emptyBoard 'W' : Int) ∧
    ∀ bl wh : Int,
      (bl > wh → print_winner bl wh = .blackWins (bl - wh) ∧ 0 < bl - wh) ∧
      (wh > bl → print_winner bl wh = .whiteWins (wh - bl) ∧ 0 < wh - bl) ∧
      (bl = wh → print_winner bl wh = .draw)) :=
  ⟨by decide, claim_c9 emptyBoard 0 none (by decide)⟩

end Reversi
